import Mathlib

/-!
A* path finding on the 10 x 10 grid of `main.go`

A shallow embedding of `main.go` without its drawing code (`NewGame`, `Update`,
`heuristic`, `getNeighbors`, the `PriorityQueue` methods, `container/heap`'s
`Push`/`Pop` and `aStar`), followed by the properties proved about it.

Modelling conventions.

* A `*Cell` is modelled by the grid slot it addresses (`CellRef`).  `NewGame`
  fills slot `[i][j]` with a fresh cell and no slot is ever reassigned, so
  pointer equality of grid cells is equality of slots.  The fields of the cell
  are read through `Game.cell`.
* `gCost`, `hCost` and `gScore` are `float64` in the source and hold whole
  non-negative numbers only; they are modelled by `Nat`.  `heuristic` models the
  wrapping subtraction of Go's 64-bit `int` and the rounding of `float64`
  (`wrapInt64`, `roundFloat64`).  In every run on a well-formed grid `gCost` is
  below the number of cells and `hCost` at most `2 * (gridSize - 1)`, so the
  sums `g + 1` and `g + h` are far below `2^53` and exact.
* `Node.index` is written by `Swap` and `Push` and read nowhere; it is left
  out of `Node`.
* A run-time panic of Go (index out of range, nil dereference) is the outcome
  `Result.fault`; unbounded loops take a fuel argument and report
  `Result.outOfFuel` when it runs out.
* What `Update` reads from ebiten and from the clock (mouse buttons, cursor
  position, `time.Now()`) is an argument of the model, the record `Input`.
* Statements about "every run of `aStar`" are about `RunReach`, the states of
  the main loop together with the history of pushes and pops; `aStarLoop_step`,
  `aStarLoop_found` and `aStarLoop_empty` tie its steps to `aStarLoop`.
-/

namespace AStar

/-! ## Data model -/

/-- The constant `gridSize` of the source. -/
abbrev gridSize : Nat := 10

/-- The struct `Cell`; the field `end` of the source is `isEnd` here. -/
structure Cell where
  x : Int
  y : Int
  wall : Bool
  start : Bool
  isEnd : Bool
deriving DecidableEq, Repr

/-- A pointer to a cell of the grid: the slot `grid[i][j]` it was taken from. -/
abbrev CellRef := Fin gridSize × Fin gridSize

/-- The struct `Game`.  `lastUpdate` is a time stamp. -/
structure Game where
  grid : Fin gridSize → Fin gridSize → Cell
  startPoint : Option CellRef
  endPoint : Option CellRef
  path : List CellRef
  currentStep : Int
  lastUpdate : Nat

/-- Dereference of a cell pointer. -/
def Game.cell (g : Game) (r : CellRef) : Cell := g.grid r.1 r.2

/-- The index expression `g.grid[i][j]` for Go `int`s `i`, `j`: the pointer
stored in that slot, or `none` where Go panics with index out of range. -/
def Game.index (_g : Game) (i j : Int) : Option CellRef :=
  if h : 0 ≤ i ∧ i < gridSize ∧ 0 ≤ j ∧ j < gridSize then
    some (⟨i.toNat, by omega⟩, ⟨j.toNat, by omega⟩)
  else none

/-- The constructor `NewGame`: cell `[i][j]` has `x = i`, `y = j` and no flag set; `now` is the
reading of the clock. -/
def NewGame (now : Nat) : Game where
  grid := fun i j => { x := i.val, y := j.val, wall := false, start := false, isEnd := false }
  startPoint := none
  endPoint := none
  path := []
  currentStep := 0
  lastUpdate := now

/-- The coordinates stored in every cell are those of its slot, as `NewGame`
sets them up (no code writes `x` or `y` afterwards). -/
def Game.WF (g : Game) : Prop :=
  ∀ i j : Fin gridSize, (g.grid i j).x = (i.val : Int) ∧ (g.grid i j).y = (j.val : Int)

instance (g : Game) : Decidable g.WF := by
  unfold Game.WF; infer_instance

/-- The struct `Node` (without the write-only `index`). -/
inductive Node where
  | mk (cell : CellRef) (gCost : Nat) (hCost : Nat) (parent : Option Node)
deriving Repr

namespace Node

/-- Field `cell`. -/
def cell : Node → CellRef
  | mk c _ _ _ => c

/-- Field `gCost`. -/
def gCost : Node → Nat
  | mk _ g _ _ => g

/-- Field `hCost`. -/
def hCost : Node → Nat
  | mk _ _ h _ => h

/-- Field `parent`; `none` is the nil pointer. -/
def parent : Node → Option Node
  | mk _ _ _ p => p

/-- The method `fCost`. -/
def fCost (n : Node) : Nat := n.gCost + n.hCost

end Node

instance : Inhabited Node := ⟨Node.mk (0, 0) 0 0 none⟩

/-! ## The priority queue -/

/-- The slice type `PriorityQueue`. -/
abbrev PriorityQueue := List Node

namespace PriorityQueue

/-- Method `Len`. -/
def Len (pq : PriorityQueue) : Nat := pq.length

/-- Method `Less`. -/
def Less (pq : PriorityQueue) (i j : Nat) : Bool :=
  decide ((pq.getD i default).fCost < (pq.getD j default).fCost)

/-- Method `Swap` (the writes to `index` are dropped with the field). -/
def Swap (pq : PriorityQueue) (i j : Nat) : PriorityQueue :=
  (pq.set i (pq.getD j default)).set j (pq.getD i default)

/-- Method `Push`: append at the end. -/
def Push (pq : PriorityQueue) (n : Node) : PriorityQueue := pq ++ [n]

/-- Method `Pop`: remove and return the last element; `none` on the empty
slice, where `old[n-1]` panics. -/
def Pop (pq : PriorityQueue) : Option (Node × PriorityQueue) :=
  match pq.getLast? with
  | none => none
  | some item => some (item, pq.dropLast)

end PriorityQueue

/-! ## `container/heap`

`main.go` drives its queue through `heap.Init`, `heap.Push` and `heap.Pop` of the
Go standard library.  The functions below transcribe `container/heap/heap.go`
(`Init`, `Push`, `Pop`, `up`, `down`).  Slice positions are `Nat`: they are never
negative, and `(j - 1) / 2` at `j = 0` is `0` both with Go's truncating division of
`-1` and with truncated subtraction.  The guard `j1 < 0` of `down`, which catches
`int` overflow of `2*i + 1`, cannot fire on a slice and is left out.  `Less` and
`Swap` read the slice with a default outside its range; the loop guards keep every
position they are called with inside the slice. -/

/-- The loop of `heap.up`; one unit of fuel per iteration. -/
def up : Nat → PriorityQueue → Nat → PriorityQueue
  | 0, h, _ => h
  | fuel + 1, h, j =>
    let i := (j - 1) / 2
    if i = j ∨ !h.Less j i then h
    else up fuel (h.Swap i j) i

/-- The loop of `heap.down` on the prefix of length `n`, started at `i`; one unit
of fuel per iteration.  (The boolean result of the source is unused by `Pop`.) -/
def down : Nat → PriorityQueue → Nat → Nat → PriorityQueue
  | 0, h, _, _ => h
  | fuel + 1, h, i, n =>
    let j1 := 2 * i + 1
    if j1 ≥ n then h
    else
      let j2 := j1 + 1
      let j := if j2 < n ∧ h.Less j2 j1 then j2 else j1
      if !h.Less j i then h
      else down fuel (h.Swap i j) j n

/-- The function `heap.Push(h, x)`: `h.Push(x); up(h, h.Len()-1)`.  The index handed to `up`
bounds the number of iterations of its loop. -/
def heapPush (h : PriorityQueue) (x : Node) : PriorityQueue :=
  let h1 := h.Push x
  up h1.Len h1 (h1.Len - 1)

/-- The function `heap.Pop(h)`: `n := h.Len()-1; h.Swap(0, n); down(h, 0, n);
return h.Pop()`.
On the empty queue `Swap(0, -1)` panics: `none`. -/
def heapPop (h : PriorityQueue) : Option (Node × PriorityQueue) :=
  if h.Len = 0 then none
  else
    let n := h.Len - 1
    (down n (h.Swap 0 n) 0 n).Pop

/-- The function `heap.Init(h)`: `down(h, i, n)` for `i = n/2-1` down to `0`. -/
def heapInit (h : PriorityQueue) : PriorityQueue :=
  (List.range (h.Len / 2)).reverse.foldl (fun q i => down h.Len q i h.Len) h

/-! ## Heuristic and neighbours -/

/-- The result of an arithmetic operation on Go's 64-bit `int`: the value
modulo `2^64` in the range from `-2^63` to `2^63 - 1`. -/
def wrapInt64 (z : Int) : Int :=
  (z + 9223372036854775808) % 18446744073709551616 - 9223372036854775808

/-- How often `n` must be halved to come below `2^53`; `fuel` bounds the number
of halvings and `n` itself is always enough. -/
def excessBits : Nat → Nat → Nat
  | 0, _ => 0
  | fuel + 1, n => if n < 9007199254740992 then 0 else excessBits fuel (n / 2) + 1

/-- The `float64` nearest to the whole number `n`, ties going to the even
mantissa: numbers below `2^53` are exact, larger ones keep their leading 53
bits.  The result is again a whole number. -/
def roundFloat64 (n : Nat) : Nat :=
  if n < 9007199254740992 then n
  else
    let e := excessBits n n
    let q := n / 2 ^ e
    let r := n % 2 ^ e
    let half := 2 ^ (e - 1)
    if r < half then q * 2 ^ e
    else if half < r then (q + 1) * 2 ^ e
    else if q % 2 = 0 then q * 2 ^ e
    else (q + 1) * 2 ^ e

/-- The function `heuristic`: `dx := math.Abs(float64(a.x - b.x))`, likewise
`dy`, and the `float64` sum `dx + dy`.  The subtractions are those of `int`, the
conversions and the sum round to `float64`. -/
def heuristic (a b : Cell) : Nat :=
  let dx := roundFloat64 (wrapInt64 (a.x - b.x)).natAbs
  let dy := roundFloat64 (wrapInt64 (a.y - b.y)).natAbs
  roundFloat64 (dx + dy)

/-- The table `dirs` of `getNeighbors`. -/
def dirs : List (Int × Int) := [(0, 1), (1, 0), (0, -1), (-1, 0)]

/-- One iteration of the loop of `getNeighbors`: `none` when the grid is
indexed out of range. -/
def neighborStep (g : Game) (cell : CellRef) (neighbors : List CellRef) (d : Int × Int) :
    Option (List CellRef) :=
  let nx := (g.cell cell).x + d.1
  let ny := (g.cell cell).y + d.2
  if nx ≥ 0 ∧ nx < gridSize ∧ ny ≥ 0 ∧ ny < gridSize then
    match g.index nx ny with
    | none => none
    | some r => if !(g.cell r).wall then some (neighbors ++ [r]) else some neighbors
  else some neighbors

/-- The method `getNeighbors`. -/
def Game.getNeighbors (g : Game) (cell : CellRef) : Option (List CellRef) :=
  dirs.foldlM (neighborStep g cell) []

/-! ## The search -/

/-- What a call produces: a value, a Go panic, or an exhausted fuel budget. -/
inductive Result (α : Type) where
  | ok (a : α)
  | fault
  | outOfFuel
deriving DecidableEq, Repr

/-- The local variables of `aStar` that change in its loop. -/
structure SearchState where
  openSet : PriorityQueue
  cameFrom : CellRef → Option Node
  gScore : CellRef → Option Nat

/-- The path reconstruction loop `for n := current; n != nil; n = n.parent`,
which prepends `n.cell` to `path`. -/
def reconstruct : Node → List CellRef → List CellRef
  | .mk c _ _ none, path => c :: path
  | .mk c _ _ (some p), path => reconstruct p (c :: path)

/-- The body of the loop over the neighbours of `current`. -/
def relax (g : Game) (endCell : CellRef) (current : Node) (st : SearchState)
    (neighbor : CellRef) : SearchState :=
  let tentativeG := current.gCost + 1
  let improves : Bool :=
    match st.gScore neighbor with
    | none => true
    | some s => decide (tentativeG < s)
  if improves then
    let neighborNode :=
      Node.mk neighbor tentativeG (heuristic (g.cell neighbor) (g.cell endCell)) (some current)
    { openSet := heapPush st.openSet neighborNode
      cameFrom := Function.update st.cameFrom neighbor (some neighborNode)
      gScore := Function.update st.gScore neighbor (some tentativeG) }
  else st

/-- The main loop `for openSet.Len() > 0` of `aStar`; one unit of fuel per
iteration.  The nil slice returned after the loop is `[]`. -/
def aStarLoop (g : Game) (endCell : CellRef) : Nat → SearchState → Result (List CellRef)
  | 0, _ => .outOfFuel
  | fuel + 1, st =>
    if st.openSet.Len > 0 then
      match heapPop st.openSet with
      | none => .fault
      | some (current, openSet) =>
        if current.cell = endCell then .ok (reconstruct current [])
        else
          match g.getNeighbors current.cell with
          | none => .fault
          | some neighbors =>
            aStarLoop g endCell fuel
              (neighbors.foldl (relax g endCell current) { st with openSet := openSet })
    else .ok []

/-- The state of `aStar` on entry to its loop. -/
def initState (g : Game) (startPoint endPoint : CellRef) : SearchState :=
  let startNode := Node.mk startPoint 0 (heuristic (g.cell startPoint) (g.cell endPoint)) none
  { openSet := heapPush (heapInit []) startNode
    cameFrom := Function.update (fun _ => none) startPoint (some startNode)
    gScore := Function.update (fun _ => none) startPoint (some 0) }

/-- The method `aStar` with a fuel budget for its main loop.  Dereferencing a
nil `startPoint` or `endPoint` panics. -/
def aStarFuel (fuel : Nat) (g : Game) : Result (List CellRef) :=
  match g.startPoint, g.endPoint with
  | some s, some e => aStarLoop g e fuel (initState g s e)
  | _, _ => .fault

/-- A budget that the main loop never exhausts (`aStar_total`): twice the number
of pairs of a cell and a `gScore` below the number of cells, plus two. -/
def fuelBound : Nat := 2 * (gridSize * gridSize * (gridSize * gridSize)) + 2

/-- The method `aStar`. -/
def aStar (g : Game) : Result (List CellRef) := aStarFuel fuelBound g

/-! ## Specification vocabulary -/

/-- The priority of the node at position `i` of the slice. -/
def key (h : PriorityQueue) (i : Nat) : Nat := (h.getD i default).fCost

/-- Positions `1 .. n-1` of the slice are not below their parent position. -/
def HeapUpTo (h : PriorityQueue) (n : Nat) : Prop :=
  ∀ c, 0 < c → c < n → key h ((c - 1) / 2) ≤ key h c

/-- The heap order of `container/heap` on the whole slice. -/
def IsHeap (h : PriorityQueue) : Prop := HeapUpTo h h.length

/-- The queues that `heap.Push` and `heap.Pop` build from the empty queue. -/
inductive Reachable : PriorityQueue → Prop where
  | empty : Reachable []
  | push (h : PriorityQueue) (x : Node) : Reachable h → Reachable (heapPush h x)
  | pop (h h' : PriorityQueue) (x : Node) : Reachable h → heapPop h = some (x, h') →
      Reachable h'

/-- An operation of a client of the queue. -/
inductive HeapOp where
  | push (n : Node)
  | pop

/-- Run a sequence of operations from queue `q`, appending every popped node to
`popped`; `none` when `heap.Pop` is called on the empty queue. -/
def runOps : List HeapOp → PriorityQueue → List Node → Option (PriorityQueue × List Node)
  | [], q, popped => some (q, popped)
  | HeapOp.push n :: ops, q, popped => runOps ops (heapPush q n) popped
  | HeapOp.pop :: ops, q, popped =>
    match heapPop q with
    | none => none
    | some (x, q') => runOps ops q' (popped ++ [x])

/-- The nodes pushed by a sequence of operations, in the order of the pushes. -/
def pushedNodes : List HeapOp → List Node
  | [] => []
  | HeapOp.push n :: ops => n :: pushedNodes ops
  | HeapOp.pop :: ops => pushedNodes ops

/-- First-in-first-served among equal keys, as the specification words it: in
every run that pushes pairwise different nodes, if a node pushed later than a
node of the same `fCost` is popped, the earlier one was popped before it. -/
def FifoAmongEqualKeys : Prop :=
  ∀ (ops : List HeapOp) (q : PriorityQueue) (popped : List Node),
    (pushedNodes ops).Nodup → runOps ops [] [] = some (q, popped) →
    ∀ i j k : Nat, i < j → j < (pushedNodes ops).length → k < popped.length →
      ((pushedNodes ops).getD i default).fCost = ((pushedNodes ops).getD j default).fCost →
      popped.getD k default = (pushedNodes ops).getD j default →
      ∃ m, m < k ∧ popped.getD m default = (pushedNodes ops).getD i default

/-- Orthogonal adjacency of two grid slots: Manhattan distance `1`. -/
def Adjacent (a b : CellRef) : Prop :=
  ((a.1.val : Int) - b.1.val).natAbs + ((a.2.val : Int) - b.2.val).natAbs = 1

instance (a b : CellRef) : Decidable (Adjacent a b) := by
  unfold Adjacent; infer_instance

/-- One move of the unit-cost grid: to an orthogonally adjacent cell that is not
a wall. -/
def Game.Step (g : Game) (a b : CellRef) : Prop := Adjacent a b ∧ (g.cell b).wall = false

instance (g : Game) (a b : CellRef) : Decidable (g.Step a b) := by
  unfold Game.Step; infer_instance

/-- A walk from `s` to `e`: a list of cells `s = c0, c1, ..., ck = e` whose
consecutive cells are orthogonally adjacent and whose cells after the first are
not walls.  It has `w.length - 1` edges. -/
def Game.Walk (g : Game) (s e : CellRef) (w : List CellRef) : Prop :=
  w.head? = some s ∧ w.getLast? = some e ∧ List.Chain' g.Step w

/-- A decision procedure for chains of moves that evaluates by plain recursion. -/
def decChainStep (g : Game) : (l : List CellRef) → Decidable (List.Chain' g.Step l)
  | [] => isTrue List.chain'_nil
  | [a] => isTrue (List.chain'_singleton a)
  | a :: b :: l =>
    have := decChainStep g (b :: l)
    decidable_of_iff (g.Step a b ∧ List.Chain' g.Step (b :: l)) List.chain'_cons.symm

instance (g : Game) (s e : CellRef) (w : List CellRef) : Decidable (g.Walk s e w) :=
  @instDecidableAnd _ _ _ (@instDecidableAnd _ _ _ (decChainStep g w))

/-- The slot `(c.x + dx, c.y + dy)`, when it lies inside the grid and is not a
wall. -/
def neighborAt (g : Game) (c : CellRef) (d : Int × Int) : Option CellRef :=
  match g.index ((c.1.val : Int) + d.1) ((c.2.val : Int) + d.2) with
  | some r => if (g.cell r).wall then none else some r
  | none => none

/-- The neighbours of `c` as the specification words them: the slots
`(c.x + dx, c.y + dy)` for `(dx, dy)` in the order of `dirs`, keeping those inside
the grid that are not walls. -/
def expectedNeighbors (g : Game) (c : CellRef) : List CellRef :=
  dirs.filterMap (neighborAt g c)

/-- The cells on the parent chain of a node, the node's own cell first. -/
def Node.chain : Node → List CellRef
  | .mk c _ _ none => [c]
  | .mk c _ _ (some p) => c :: p.chain

/-- A node as `aStar` creates it for the search from `s` to `e`: the start node,
or a child created while expanding a valid parent. -/
def ValidNode (g : Game) (s e : CellRef) : Node → Prop
  | .mk c gc hc none => c = s ∧ gc = 0 ∧ hc = heuristic (g.cell c) (g.cell e)
  | .mk c gc hc (some p) =>
    g.Step p.cell c ∧ gc = p.gCost + 1 ∧ hc = heuristic (g.cell c) (g.cell e) ∧
      ValidNode g s e p

/-- The state after a relaxation that records a better `gScore` for `w`. -/
def improved (g : Game) (e : CellRef) (current : Node) (st : SearchState) (w : CellRef) :
    SearchState :=
  { openSet := heapPush st.openSet
      (Node.mk w (current.gCost + 1) (heuristic (g.cell w) (g.cell e)) (some current))
    cameFrom := Function.update st.cameFrom w
      (some (Node.mk w (current.gCost + 1) (heuristic (g.cell w) (g.cell e)) (some current)))
    gScore := Function.update st.gScore w (some (current.gCost + 1)) }

/-- The recorded `gScore` of `c` exists and is at most `b`. -/
def Within (st : SearchState) (c : CellRef) (b : Nat) : Prop :=
  ∃ gc, st.gScore c = some gc ∧ gc ≤ b

/-- The `gScore` of a cell, counting an unseen cell as the number of cells. -/
def scoreOr (st : SearchState) (c : CellRef) : Nat :=
  (st.gScore c).getD (gridSize * gridSize)

/-- The termination measure of the main loop. -/
def potential (st : SearchState) : Nat :=
  st.openSet.length + 2 * ∑ c : CellRef, scoreOr st c

/-- What the search knows about a node it holds: it was created by the search,
its parent chain visits no cell twice, and every cell on the chain has a recorded
`gScore` not above the node's `gCost`. -/
structure NodeOK (g : Game) (s e : CellRef) (st : SearchState) (n : Node) : Prop where
  valid : ValidNode g s e n
  nodup : n.chain.Nodup
  seen : ∀ c ∈ n.chain, Within st c n.gCost

/-- The invariant of the main loop of `aStar` at the loop head. -/
structure Inv (g : Game) (s e : CellRef) (st : SearchState) : Prop where
  heap : IsHeap st.openSet
  nodes : ∀ n ∈ st.openSet, NodeOK g s e st n
  start : st.gScore s = some 0
  closed : ∀ v gv, st.gScore v = some gv →
    (∃ n ∈ st.openSet, n.cell = v ∧ n.gCost = gv) ∨
    (v ≠ e ∧ ∀ w, g.Step v w → Within st w (gv + 1))

/-- The invariant inside the loop over the neighbours of the popped node
`current`, after the neighbours in `done` have been handled. -/
structure Expanding (g : Game) (s e : CellRef) (st : SearchState) (current : Node)
    (done : List CellRef) : Prop where
  heap : IsHeap st.openSet
  nodes : ∀ n ∈ st.openSet, NodeOK g s e st n
  cur : NodeOK g s e st current
  start : st.gScore s = some 0
  closed : ∀ v gv, st.gScore v = some gv →
    (∃ n ∈ st.openSet, n.cell = v ∧ n.gCost = gv) ∨
    (v ≠ e ∧ ∀ w, g.Step v w → Within st w (gv + 1)) ∨
    (v = current.cell ∧ gv = current.gCost ∧ ∀ w ∈ done, Within st w (gv + 1))

/-! ## Example inputs -/

/-- A game on the grid of `NewGame` with the given walls, start and end. -/
def wallGame (walls : List CellRef) (s e : CellRef) : Game where
  grid := fun i j =>
    { x := i.val, y := j.val, wall := decide ((i, j) ∈ walls),
      start := decide ((i, j) = s), isEnd := decide ((i, j) = e) }
  startPoint := some s
  endPoint := some e
  path := []
  currentStep := 0
  lastUpdate := 0

/-- Start `(0,0)`, end `(0,2)`, a wall between them at `(0,1)`. -/
def detourGame : Game := wallGame [(0, 1)] (0, 0) (0, 2)

/-- Start `(0,0)` with both of its neighbours walled, end `(2,2)`. -/
def enclosedGame : Game := wallGame [(0, 1), (1, 0)] (0, 0) (2, 2)

/-- Start and end on the same cell `(3,4)`, which has been made a wall. -/
def sameCellGame : Game := wallGame [(3, 4)] (3, 4) (3, 4)

/-- A cell at the origin. -/
def originCell : Cell := { x := 0, y := 0, wall := false, start := false, isEnd := false }

/-- First of three nodes of equal `fCost` for different cells. -/
def tieA : Node := Node.mk (0, 0) 1 0 none

/-- Second of three nodes of equal `fCost` for different cells. -/
def tieB : Node := Node.mk (1, 0) 1 0 none

/-- Third of three nodes of equal `fCost` for different cells. -/
def tieC : Node := Node.mk (2, 0) 1 0 none

/-! ## The method `Update` -/

/-- The constant `screenWidth` of the source. -/
abbrev screenWidth : Nat := 400

/-- The constant `screenHeight` of the source. -/
abbrev screenHeight : Nat := 400

/-- The constant `cellSize = screenWidth / gridSize` of the source. -/
abbrev cellSize : Nat := screenWidth / gridSize

/-- What one call of `Update` reads from its environment: the state of the two
mouse buttons, the cursor position, and the clock at the three places where the
source reads it (`time.Now()` after the search, `time.Since` in the animation
test, `time.Now()` after an animation step), in nanoseconds. -/
structure Input where
  left : Bool
  right : Bool
  x : Int
  y : Int
  nowSearch : Nat
  nowCheck : Nat
  nowStep : Nat

/-- The grid after the cell behind pointer `r` has been changed by `f`. -/
def Game.setCell (g : Game) (r : CellRef) (f : Cell → Cell) :
    Fin gridSize → Fin gridSize → Cell :=
  fun i j => if (i, j) = r then f (g.grid i j) else g.grid i j

/-- The left-button part of `Update`.  The division of the cursor position by
`cellSize` is Go's truncating division; `g.grid[gridX][gridY]` panics outside the
array, which is the outcome `fault`. -/
def Game.click (g : Game) (inp : Input) : Result Game :=
  if inp.left then
    let gridX := Int.tdiv inp.x cellSize
    let gridY := Int.tdiv inp.y cellSize
    if gridX < gridSize ∧ gridY < gridSize then
      match g.index gridX gridY with
      | none => .fault
      | some cell =>
        if g.startPoint = none then
          .ok { g with
            grid := g.setCell cell (fun c => { c with start := true })
            startPoint := some cell }
        else if g.endPoint = none then
          .ok { g with
            grid := g.setCell cell (fun c => { c with isEnd := true })
            endPoint := some cell }
        else
          .ok { g with grid := g.setCell cell (fun c => { c with wall := true }) }
    else .ok g
  else .ok g

/-- The right-button part of `Update`: the call of `aStar` and the reset of the
animation. -/
def Game.search (g : Game) (inp : Input) : Result Game :=
  if inp.right ∧ g.startPoint ≠ none ∧ g.endPoint ≠ none then
    match aStar g with
    | .ok p => .ok { g with path := p, currentStep := 0, lastUpdate := inp.nowSearch }
    | .fault => .fault
    | .outOfFuel => .outOfFuel
  else .ok g

/-- The animation part of `Update`: one more path cell is shown when more than
100 ms have passed since `lastUpdate`. -/
def Game.animate (g : Game) (inp : Input) : Game :=
  if g.currentStep < g.path.length then
    if (inp.nowCheck : Int) - g.lastUpdate > 100 * 1000000 then
      { g with currentStep := g.currentStep + 1, lastUpdate := inp.nowStep }
    else g
  else g

/-- The method `Update`. -/
def Game.Update (g : Game) (inp : Input) : Result Game :=
  match g.click inp with
  | .ok g1 =>
    match g1.search inp with
    | .ok g2 => .ok (g2.animate inp)
    | .fault => .fault
    | .outOfFuel => .outOfFuel
  | .fault => .fault
  | .outOfFuel => .outOfFuel

/-- The game states reachable from `NewGame` by calls of `Update` that return. -/
inductive GameReach : Game → Prop where
  | new (now : Nat) : GameReach (NewGame now)
  | update (g g' : Game) (inp : Input) : GameReach g → g.Update inp = .ok g' → GameReach g'

/-- The value of a result, or `d` when there is none. -/
def Result.getD {α : Type} (r : Result α) (d : α) : α :=
  match r with
  | .ok a => a
  | _ => d

/-- Whether a result is a value. -/
def Result.isOk {α : Type} (r : Result α) : Bool :=
  match r with
  | .ok _ => true
  | _ => false

/-- A sequence of calls of `Update`, one per input. -/
def Game.run : List Input → Game → Result Game
  | [], g => .ok g
  | inp :: inps, g =>
    match g.Update inp with
    | .ok g' => Game.run inps g'
    | .fault => .fault
    | .outOfFuel => .outOfFuel

/-- A call of `Update` with the left button pressed at cursor `(x, y)`. -/
def leftClick (x y : Int) : Input :=
  { left := true, right := false, x := x, y := y, nowSearch := 0, nowCheck := 0, nowStep := 0 }

/-- A call of `Update` with both buttons pressed at cursor `(x, y)`. -/
def bothClick (x y : Int) : Input :=
  { left := true, right := true, x := x, y := y, nowSearch := 0, nowCheck := 0, nowStep := 0 }

/-- A call of `Update` with only the right button pressed. -/
def rightClick : Input :=
  { left := false, right := true, x := 0, y := 0, nowSearch := 0, nowCheck := 0, nowStep := 0 }

/-- What holds of every reachable game: the coordinates are those of the slots,
the role flags mark exactly the cells behind `startPoint` and `endPoint`, no wall
exists before both roles are assigned, and the end is assigned after the start. -/
structure GameInv (g : Game) : Prop where
  wf : g.WF
  startFlag : ∀ c : CellRef, (g.cell c).start = true ↔ g.startPoint = some c
  endFlag : ∀ c : CellRef, (g.cell c).isEnd = true ↔ g.endPoint = some c
  noWallEarly : (g.startPoint = none ∨ g.endPoint = none) → ∀ c : CellRef, (g.cell c).wall = false
  startFirst : g.startPoint = none → g.endPoint = none

/-- Role and obstacle exclude each other, as the specification words it: in no
reachable state is a cell a wall and the start or the end. -/
def RoleWallExclusive : Prop :=
  ∀ g, GameReach g → ∀ c : CellRef,
    ¬ ((g.cell c).wall = true ∧ ((g.cell c).start = true ∨ (g.cell c).isEnd = true))

/-- A wall-placing click on a cell that holds a role is a no-op, as the
specification words it. -/
def WallClickOnRoleIsNoOp : Prop :=
  ∀ g, GameReach g → ∀ (inp : Input) (c : CellRef) (g' : Game),
    g.startPoint ≠ none → g.endPoint ≠ none → inp.left = true →
    g.index (Int.tdiv inp.x cellSize) (Int.tdiv inp.y cellSize) = some c →
    ((g.cell c).start = true ∨ (g.cell c).isEnd = true) →
    g.click inp = .ok g' → g'.grid = g.grid

/-- The search precondition as the specification words it: whenever `Update`
reaches the call of `aStar`, the start and the end cell differ. -/
def SearchOnDistinctCells : Prop :=
  ∀ g, GameReach g → ∀ (inp : Input) (g1 : Game), g.click inp = .ok g1 → inp.right = true →
    ∀ s e : CellRef, g1.startPoint = some s → g1.endPoint = some e → s ≠ e

/-- Two games present the same walls to the search. -/
def SameWalls (g1 g2 : Game) : Prop :=
  ∀ c : CellRef, (g1.cell c).wall = (g2.cell c).wall

/-- The coordinate pairs stored in the cells of a path. -/
def Game.coords (g : Game) (p : List CellRef) : List (Int × Int) :=
  p.map fun c => ((g.cell c).x, (g.cell c).y)

/-! ## Runs of the main loop with their history -/

/-- The test `!seen || tentativeG < gScore[neighbor]` of the relaxation. -/
def improves (st : SearchState) (current : Node) (nb : CellRef) : Bool :=
  match st.gScore nb with
  | none => true
  | some s => decide (current.gCost + 1 < s)

/-- The node `neighborNode` that a relaxation creates. -/
def childNode (g : Game) (e : CellRef) (current : Node) (nb : CellRef) : Node :=
  Node.mk nb (current.gCost + 1) (heuristic (g.cell nb) (g.cell e)) (some current)

/-- The nodes pushed while the neighbours `nbs` of `current` are relaxed from
state `st`, in the order of the pushes. -/
def pushLog (g : Game) (e : CellRef) (current : Node) : SearchState → List CellRef → List Node
  | _, [] => []
  | st, nb :: nbs =>
    (if improves st current nb then [childNode g e current nb] else []) ++
      pushLog g e current (relax g e current st nb) nbs

/-- A state of the main loop together with its history: every node handed to
`heap.Push` so far and every node expanded so far, both in order. -/
structure Run where
  st : SearchState
  pushed : List Node
  popped : List Node

/-- The run on entry to the main loop. -/
def Run.init (g : Game) (s e : CellRef) : Run where
  st := initState g s e
  pushed := [Node.mk s 0 (heuristic (g.cell s) (g.cell e)) none]
  popped := []

/-- One iteration of the main loop that goes on to the next iteration: the body
of `aStarLoop` with the history kept.  The result is `none` when the iteration
leaves the loop (empty frontier, end cell popped) or panics. -/
def Run.step (g : Game) (e : CellRef) (r : Run) : Option Run :=
  if r.st.openSet.Len > 0 then
    match heapPop r.st.openSet with
    | none => none
    | some (current, openSet) =>
      if current.cell = e then none
      else
        match g.getNeighbors current.cell with
        | none => none
        | some neighbors =>
          some
            { st := neighbors.foldl (relax g e current) { r.st with openSet := openSet }
              pushed := r.pushed ++ pushLog g e current { r.st with openSet := openSet } neighbors
              popped := r.popped ++ [current] }
  else none

/-- The run after `k` further iterations, when there are that many. -/
def Run.steps (g : Game) (e : CellRef) : Nat → Run → Option Run
  | 0, r => some r
  | k + 1, r =>
    match r.step g e with
    | none => none
    | some r' => Run.steps g e k r'

/-- The runs of the main loop of `aStar` for the search from `s` to `e`. -/
inductive RunReach (g : Game) (s e : CellRef) : Run → Prop where
  | init : RunReach g s e (Run.init g s e)
  | step (r r' : Run) : RunReach g s e r → r.step g e = some r' → RunReach g s e r'

/-- The number of parent links from a node back to a node without parent. -/
def Node.depth : Node → Nat
  | .mk _ _ _ none => 0
  | .mk _ _ _ (some p) => p.depth + 1

/-- The node without parent at the end of the parent links of a node. -/
def Node.root : Node → Node
  | .mk c g h none => .mk c g h none
  | .mk _ _ _ (some p) => p.root

/-- The most recently pushed node for cell `c`. -/
def lastFor (pushed : List Node) (c : CellRef) : Option Node :=
  (pushed.filter fun n => decide (n.cell = c)).getLast?

/-- The facts about the history that hold while the neighbours of the popped
node `current` are relaxed: `popped` already contains `current`, the neighbours in
`done` have been handled, `st` is the state and `pushed` the push history. -/
structure FoldInv (g : Game) (s e : CellRef) (current : Node) (popped : List Node)
    (done : List CellRef) (st : SearchState) (pushed : List Node) : Prop where
  exp : Expanding g s e st current done
  perm : (st.openSet ++ popped).Perm pushed
  valid : ∀ n ∈ pushed, ValidNode g s e n ∧ Within st n.cell n.gCost
  decreasing : pushed.Pairwise fun a b => a.cell = b.cell → b.gCost < a.gCost
  score : ∀ c, st.gScore c = (lastFor pushed c).map Node.gCost
  came : ∀ c, st.cameFrom c = lastFor pushed c
  mono : ∀ m ∈ popped, ∀ n ∈ st.openSet, m.fCost ≤ n.fCost

/-- The facts about a run that hold at the head of the main loop: the loop
invariant, every pushed node is on the frontier or was expanded, pushed nodes were
created by the search and are not below the recorded `gScore` of their cell, the
nodes of one cell were pushed with falling `gCost`, `gScore` and `cameFrom` record
the last node pushed for a cell, and the expanded nodes have non-decreasing
`fCost` not above that of any frontier node. -/
structure RunInv (g : Game) (s e : CellRef) (r : Run) : Prop where
  inv : Inv g s e r.st
  perm : (r.st.openSet ++ r.popped).Perm r.pushed
  valid : ∀ n ∈ r.pushed, ValidNode g s e n ∧ Within r.st n.cell n.gCost
  decreasing : r.pushed.Pairwise fun a b => a.cell = b.cell → b.gCost < a.gCost
  score : ∀ c, r.st.gScore c = (lastFor r.pushed c).map Node.gCost
  came : ∀ c, r.st.cameFrom c = lastFor r.pushed c
  mono : ∀ m ∈ r.popped, ∀ n ∈ r.st.openSet, m.fCost ≤ n.fCost
  sorted : r.popped.Pairwise fun a b => a.fCost ≤ b.fCost

/-- A game whose search pops a stale node: start `(1,0)`, end `(0,4)`. -/
def staleGame : Game := wallGame [(0, 3), (1, 1), (1, 4), (3, 3), (4, 0)] (1, 0) (0, 4)

/-- The run of the search on `staleGame` after eleven iterations. -/
def staleRun : Run :=
  (Run.steps staleGame (0, 4) 11 (Run.init staleGame (1, 0) (0, 4))).getD
    (Run.init staleGame (1, 0) (0, 4))

/-- The node that the twelfth iteration on `staleGame` pops, with the rest of
the frontier. -/
def stalePop : Node × PriorityQueue :=
  (heapPop staleRun.st.openSet).getD (default, [])

/-- The game after a click on cell `(0,0)` and a click on cell `(1,0)`: start
and end are assigned. -/
def twoRoles : Game :=
  ((NewGame 0).run [leftClick 0 0, leftClick 40 0]).getD (NewGame 0)

/-- The game after a further click on the start cell `(0,0)`. -/
def walledStart : Game :=
  ((NewGame 0).run [leftClick 0 0, leftClick 40 0, leftClick 0 0]).getD (NewGame 0)

/-- The game after one click on cell `(0,0)`: only the start is assigned. -/
def oneRole : Game :=
  ((NewGame 0).run [leftClick 0 0]).getD (NewGame 0)

/-- The game `detourGame` with other role flags, stored path, animation step
and time stamp. -/
def detourGameAlt : Game where
  grid := fun i j => { detourGame.grid i j with start := false, isEnd := true }
  startPoint := detourGame.startPoint
  endPoint := detourGame.endPoint
  path := [(5, 5)]
  currentStep := 3
  lastUpdate := 7

/-! ## Facts about `Swap` -/

theorem getD_cons_set_perm (d a : Node) :
    ∀ (t : List Node) (k : Nat), k < t.length → (t.getD k d :: t.set k a).Perm (a :: t)
  | [], _, h => by simp at h
  | b :: t, 0, _ => by
    simpa using List.Perm.swap a b t
  | b :: t, k + 1, h => by
    have ih := getD_cons_set_perm d a t k (by simpa using h)
    have h1 : (t.getD k d :: b :: t.set k a).Perm (b :: t.getD k d :: t.set k a) :=
      List.Perm.swap _ _ _
    have h2 : (b :: t.getD k d :: t.set k a).Perm (b :: a :: t) := ih.cons b
    have h3 : (b :: a :: t).Perm (a :: b :: t) := List.Perm.swap _ _ _
    simpa using (h1.trans h2).trans h3

theorem Swap_perm : ∀ (h : PriorityQueue) (i j : Nat), i < h.length → j < h.length →
    (h.Swap i j).Perm h
  | [], _, _, hi, _ => by simp at hi
  | a :: t, 0, 0, _, _ => by simp [PriorityQueue.Swap]
  | a :: t, 0, j + 1, _, hj => by
    have := getD_cons_set_perm default a t j (by simpa using hj)
    simpa [PriorityQueue.Swap] using this
  | a :: t, i + 1, 0, hi, _ => by
    have := getD_cons_set_perm default a t i (by simpa using hi)
    simpa [PriorityQueue.Swap] using this
  | a :: t, i + 1, j + 1, hi, hj => by
    have ih := Swap_perm t i j (by simpa using hi) (by simpa using hj)
    simpa [PriorityQueue.Swap] using ih

theorem Swap_length (h : PriorityQueue) (i j : Nat) : (h.Swap i j).length = h.length := by
  simp [PriorityQueue.Swap]

theorem Swap_getD (h : PriorityQueue) (i j k : Nat) (hi : i < h.length) (hj : j < h.length) :
    (h.Swap i j).getD k default =
      if k = j then h.getD i default else if k = i then h.getD j default
      else h.getD k default := by
  simp only [PriorityQueue.Swap, List.getD_eq_getElem?_getD, List.getElem?_set, List.length_set]
  by_cases hkj : k = j
  · subst hkj; simp [hj]
  · by_cases hki : k = i
    · subst hki; simp [hi, Ne.symm hkj, hkj]
    · simp [hkj, hki, Ne.symm hkj, Ne.symm hki]

/-! ## The sift loops keep the heap order -/

theorem Less_iff (h : PriorityQueue) (i j : Nat) : h.Less i j = true ↔ key h i < key h j := by
  simp [PriorityQueue.Less, key]

theorem key_Swap (h : PriorityQueue) (i j k : Nat) (hi : i < h.length) (hj : j < h.length) :
    key (h.Swap i j) k = if k = j then key h i else if k = i then key h j else key h k := by
  unfold key
  rw [Swap_getD h i j k hi hj]
  split_ifs <;> rfl

theorem up_length : ∀ (fuel : Nat) (h : PriorityQueue) (j : Nat), (up fuel h j).length = h.length
  | 0, _, _ => rfl
  | fuel + 1, h, j => by
    unfold up
    simp only
    split_ifs
    · rfl
    · rw [up_length fuel, Swap_length]

theorem up_perm : ∀ (fuel : Nat) (h : PriorityQueue) (j : Nat), j < h.length →
    (up fuel h j).Perm h
  | 0, _, _, _ => List.Perm.refl _
  | fuel + 1, h, j, hj => by
    unfold up
    simp only
    split_ifs
    · exact List.Perm.refl _
    · have hi : (j - 1) / 2 < h.length := by omega
      exact (up_perm fuel _ _ (by rw [Swap_length]; exact hi)).trans (Swap_perm h _ _ hi hj)

theorem up_heap : ∀ (fuel : Nat) (h : PriorityQueue) (j : Nat), j < fuel → j < h.length →
    (∀ c, 0 < c → c < h.length → c ≠ j → key h ((c - 1) / 2) ≤ key h c) →
    (∀ c, 0 < c → c < h.length → (c - 1) / 2 = j → 0 < j → key h ((j - 1) / 2) ≤ key h c) →
    IsHeap (up fuel h j)
  | 0, _, _, hf, _, _, _ => by omega
  | fuel + 1, h, j, hf, hj, hedge, hchild => by
    unfold up
    simp only
    split_ifs with hbreak
    · intro c hc0 hcn
      by_cases hcj : c = j
      · subst hcj
        rcases hbreak with h0 | hless
        · omega
        · have : ¬ (key h c < key h ((c - 1) / 2)) := by
            rw [← Less_iff]; simpa using hless
          omega
      · exact hedge c hc0 hcn hcj
    · have hij : (j - 1) / 2 ≠ j := fun e => hbreak (Or.inl e)
      have hlt : key h j < key h ((j - 1) / 2) := by
        rw [← Less_iff]
        by_contra hn
        exact hbreak (Or.inr (by simpa using hn))
      have hj0 : 0 < j := by omega
      have hi : (j - 1) / 2 < h.length := by omega
      have hk := key_Swap h ((j - 1) / 2) j
      refine up_heap fuel _ _ (by omega) (by rw [Swap_length]; exact hi) ?_ ?_
      · intro c hc0 hcn hci
        rw [Swap_length] at hcn
        rw [hk _ hi hj, hk _ hi hj]
        by_cases hcj : c = j
        · subst hcj
          simp [hij]
          omega
        · have e1 := hedge c hc0 hcn hcj
          simp only [hcj, hci, if_false]
          by_cases hpj : (c - 1) / 2 = j
          · simp only [hpj, if_true]
            exact hchild c hc0 hcn hpj hj0
          · simp only [hpj, if_false]
            by_cases hpi : (c - 1) / 2 = (j - 1) / 2
            · simp only [hpi, if_true]
              rw [hpi] at e1
              omega
            · simp only [hpi, if_false]
              exact e1
      · intro c hc0 hcn hpc hi0
        rw [Swap_length] at hcn
        rw [hk _ hi hj, hk _ hi hj]
        have hp1 : ((j - 1) / 2 - 1) / 2 ≠ j := by omega
        have hp2 : ((j - 1) / 2 - 1) / 2 ≠ (j - 1) / 2 := by omega
        have ei := hedge ((j - 1) / 2) hi0 hi hij
        simp only [hp1, hp2, if_false]
        by_cases hcj : c = j
        · simp only [hcj, if_true]
          exact ei
        · have hci : c ≠ (j - 1) / 2 := by omega
          simp only [hcj, hci, if_false]
          have := hedge c hc0 hcn hcj
          rw [hpc] at this
          omega


theorem down_length : ∀ (fuel : Nat) (h : PriorityQueue) (i n : Nat),
    (down fuel h i n).length = h.length
  | 0, _, _, _ => rfl
  | fuel + 1, h, i, n => by
    unfold down
    simp only
    split_ifs <;> first | rfl | (rw [down_length fuel, Swap_length])

theorem down_perm : ∀ (fuel : Nat) (h : PriorityQueue) (i n : Nat), n ≤ h.length →
    (down fuel h i n).Perm h
  | 0, _, _, _, _ => List.Perm.refl _
  | fuel + 1, h, i, n, hn => by
    unfold down
    simp only
    split_ifs with h1 h2 h3 h3
    · exact List.Perm.refl _
    · exact List.Perm.refl _
    · exact (down_perm fuel _ _ _ (by rw [Swap_length]; exact hn)).trans
        (Swap_perm h _ _ (by omega) (by omega))
    · exact List.Perm.refl _
    · exact (down_perm fuel _ _ _ (by rw [Swap_length]; exact hn)).trans
        (Swap_perm h _ _ (by omega) (by omega))

/-- Sifting down inside the prefix of length `n` leaves the rest of the slice alone. -/
theorem down_getD_ge : ∀ (fuel : Nat) (h : PriorityQueue) (i n k : Nat), n ≤ h.length → n ≤ k →
    (down fuel h i n).getD k default = h.getD k default
  | 0, _, _, _, _, _, _ => rfl
  | fuel + 1, h, i, n, k, hn, hk => by
    unfold down
    simp only
    split_ifs with h1 h2 h3 h3
    · rfl
    · rfl
    · rw [down_getD_ge fuel _ _ _ _ (by rw [Swap_length]; exact hn) hk,
        Swap_getD h _ _ _ (by omega) (by omega)]
      rw [if_neg (by omega), if_neg (by omega)]
    · rfl
    · rw [down_getD_ge fuel _ _ _ _ (by rw [Swap_length]; exact hn) hk,
        Swap_getD h _ _ _ (by omega) (by omega)]
      rw [if_neg (by omega), if_neg (by omega)]

theorem down_heap : ∀ (fuel : Nat) (h : PriorityQueue) (i n : Nat), n ≤ fuel + i →
    n ≤ h.length →
    (∀ c, 0 < c → c < n → (c - 1) / 2 ≠ i → key h ((c - 1) / 2) ≤ key h c) →
    (∀ c, 0 < c → c < n → (c - 1) / 2 = i → 0 < i → key h ((i - 1) / 2) ≤ key h c) →
    HeapUpTo (down fuel h i n) n
  | 0, h, i, n, hf, _, hedge, _ => by
    intro c hc0 hcn
    exact hedge c hc0 hcn (by omega)
  | fuel + 1, h, i, n, hf, hn, hedge, hchild => by
    unfold down
    simp only
    by_cases h1 : 2 * i + 1 ≥ n
    · rw [if_pos h1]
      intro c hc0 hcn
      exact hedge c hc0 hcn (by omega)
    · rw [if_neg h1]
      -- the smaller child
      obtain ⟨j, hjdef, hjc, hj1, hj2⟩ : ∃ j,
          (if 2 * i + 1 + 1 < n ∧ h.Less (2 * i + 1 + 1) (2 * i + 1) = true
            then 2 * i + 1 + 1 else 2 * i + 1) = j ∧
          (j = 2 * i + 1 ∨ (j = 2 * i + 2 ∧ 2 * i + 2 < n)) ∧
          key h j ≤ key h (2 * i + 1) ∧ (2 * i + 2 < n → key h j ≤ key h (2 * i + 2)) := by
        by_cases hc : 2 * i + 1 + 1 < n ∧ h.Less (2 * i + 1 + 1) (2 * i + 1) = true
        · refine ⟨2 * i + 2, by rw [if_pos hc], Or.inr ⟨rfl, hc.1⟩, ?_, fun _ => le_refl _⟩
          have := (Less_iff h _ _).1 hc.2
          simp only [show 2 * i + 1 + 1 = 2 * i + 2 from rfl] at this
          omega
        · refine ⟨2 * i + 1, by rw [if_neg hc], Or.inl rfl, le_refl _, fun h2 => ?_⟩
          have : ¬ (key h (2 * i + 1 + 1) < key h (2 * i + 1)) := by
            rw [← Less_iff]; exact fun hl => hc ⟨h2, hl⟩
          simp only [show 2 * i + 1 + 1 = 2 * i + 2 from rfl] at this
          omega
      rw [hjdef]
      have hjn : j < n := by omega
      by_cases hless : h.Less j i = true
      · have hlt := (Less_iff h j i).1 hless
        rw [if_neg (by simpa using hless)]
        have hi : i < h.length := by omega
        have hj : j < h.length := by omega
        have hk := key_Swap h i j
        refine down_heap fuel _ _ _ (by omega) (by rw [Swap_length]; exact hn) ?_ ?_
        · intro c hc0 hcn hpj
          rw [hk _ hi hj, hk _ hi hj]
          by_cases hpi : (c - 1) / 2 = i
          · have hpj2 : (c - 1) / 2 ≠ j := hpj
            have hcc : c = 2 * i + 1 ∨ c = 2 * i + 2 := by omega
            by_cases hcj : c = j
            · simp only [hcj, hpi, if_true]
              rw [hcj] at hpi
              have : i ≠ j := by omega
              simp only [hpi, this, if_false, if_true]
              omega
            · have hci : c ≠ i := by omega
              have hij : i ≠ j := by omega
              simp only [hcj, hci, hpi, hij, if_false, if_true]
              rcases hcc with e | e
              · rw [e]; exact hj1
              · rw [e]; exact hj2 (by omega)
          · have e1 := hedge c hc0 hcn hpi
            have hcj : c ≠ j := by omega
            simp only [hpj, hpi, hcj, if_false]
            by_cases hci : c = i
            · simp only [hci, if_true]
              have := hchild j (by omega) hjn (by omega) (by omega)
              rw [hci] at hpi
              exact this
            · simp only [hci, if_false]
              exact e1
        · intro c hc0 hcn hpc hj0
          rw [hk _ hi hj, hk _ hi hj]
          have hpji : (j - 1) / 2 = i := by omega
          have hij : i ≠ j := by omega
          have hcj : c ≠ j := by omega
          have hci : c ≠ i := by omega
          simp only [hpji, hij, hcj, hci, if_false, if_true]
          have := hedge c hc0 hcn (by omega)
          rw [hpc] at this
          exact this
      · rw [if_pos (by simpa using hless)]
        have hge : ¬ (key h j < key h i) := by rw [← Less_iff]; exact hless
        intro c hc0 hcn
        by_cases hpi : (c - 1) / 2 = i
        · have hcc : c = 2 * i + 1 ∨ c = 2 * i + 2 := by omega
          rw [hpi]
          rcases hcc with e | e
          · rw [e]; omega
          · rw [e]; have := hj2 (by omega); omega
        · exact hedge c hc0 hcn hpi

/-! ## `heap.Push` and `heap.Pop` keep the heap order -/

theorem heapPush_perm (h : PriorityQueue) (x : Node) : (heapPush h x).Perm (x :: h) := by
  unfold heapPush PriorityQueue.Push PriorityQueue.Len
  simp only
  refine (up_perm _ _ _ (by simp)).trans ?_
  exact (List.perm_append_comm : (h ++ [x]).Perm ([x] ++ h))

theorem key_append_left (h : PriorityQueue) (x : Node) (c : Nat) (hc : c < h.length) :
    key (h ++ [x]) c = key h c := by
  unfold key
  rw [List.getD_append _ _ _ _ hc]

theorem heapPush_heap (h : PriorityQueue) (x : Node) (hh : IsHeap h) : IsHeap (heapPush h x) := by
  unfold heapPush PriorityQueue.Push PriorityQueue.Len
  simp only
  have hl : (h ++ [x]).length = h.length + 1 := by simp
  refine up_heap _ _ _ (by omega) (by omega) ?_ ?_
  · intro c hc0 hcn hcj
    have hc : c < h.length := by omega
    rw [key_append_left h x c hc, key_append_left h x _ (by omega)]
    exact hh c hc0 hc
  · intro c hc0 hcn hpc hj0
    omega

/-- In a heap the root has the least priority. -/
theorem IsHeap.root_le {h : PriorityQueue} (hh : IsHeap h) :
    ∀ k, k < h.length → key h 0 ≤ key h k := by
  intro k
  induction k using Nat.strong_induction_on with
  | _ k ih =>
    intro hk
    by_cases h0 : k = 0
    · subst h0; exact le_refl _
    · have h1 := hh k (by omega) hk
      have h2 := ih ((k - 1) / 2) (by omega) (by omega)
      omega

theorem mem_iff_getD (h : PriorityQueue) (y : Node) :
    y ∈ h ↔ ∃ k, k < h.length ∧ h.getD k default = y := by
  constructor
  · intro hy
    obtain ⟨k, hk, e⟩ := List.getElem_of_mem hy
    exact ⟨k, hk, by rw [List.getD_eq_getElem _ _ hk]; exact e⟩
  · rintro ⟨k, hk, e⟩
    rw [← e, List.getD_eq_getElem _ _ hk]
    exact List.getElem_mem _

theorem Pop_eq (h : PriorityQueue) (hne : h ≠ []) :
    h.Pop = some (h.getD (h.length - 1) default, h.dropLast) := by
  unfold PriorityQueue.Pop
  have hlen : 0 < h.length := List.length_pos.2 hne
  have : h.getLast? = some (h.getD (h.length - 1) default) := by
    rw [List.getLast?_eq_getElem?, List.getD_eq_getElem _ _ (by omega),
      List.getElem?_eq_getElem (by omega)]
  rw [this]

theorem key_dropLast (h : PriorityQueue) (c : Nat) (hc : c < h.length - 1) :
    key h.dropLast c = key h c := by
  unfold key
  rw [List.getD_eq_getElem _ _ (by simpa using hc), List.getD_eq_getElem _ _ (by omega)]
  simp [List.getElem_dropLast]

/-- What `heap.Pop` does on a non-empty heap: it returns the root, which has the
least priority, and leaves a heap holding the other nodes. -/
theorem heapPop_spec (h : PriorityQueue) (hne : h ≠ []) (hh : IsHeap h) :
    ∃ h', heapPop h = some (h.getD 0 default, h') ∧ h.Perm (h.getD 0 default :: h') ∧
      IsHeap h' ∧ ∀ y ∈ h, (h.getD 0 default).fCost ≤ y.fCost := by
  have hlen : 0 < h.length := List.length_pos.2 hne
  have hn : h.length - 1 < h.length := by omega
  set n := h.length - 1 with hndef
  set h1 := h.Swap 0 n with h1def
  set h2 := down n h1 0 n with h2def
  have hl1 : h1.length = h.length := Swap_length _ _ _
  have hl2 : h2.length = h.length := by rw [h2def, down_length, hl1]
  have hne2 : h2 ≠ [] := by
    intro e; rw [e] at hl2; simp at hl2; omega
  have hlast : h2.getD (h2.length - 1) default = h.getD 0 default := by
    rw [hl2, h2def, down_getD_ge _ _ _ _ _ (by omega) (le_refl _), h1def,
      Swap_getD h 0 n n hlen hn]
    simp
  have hpop : heapPop h = some (h.getD 0 default, h2.dropLast) := by
    unfold heapPop PriorityQueue.Len
    rw [if_neg (by omega)]
    simp only
    rw [← hndef, ← h1def, ← h2def, Pop_eq h2 hne2, hlast]
  refine ⟨h2.dropLast, hpop, ?_, ?_, ?_⟩
  · have p2 : h2.Perm h := (down_perm _ _ _ _ (by omega)).trans (Swap_perm h 0 n hlen hn)
    have hsplit : h2.dropLast ++ [h.getD 0 default] = h2 := by
      have := @List.dropLast_append_getLast? Node h2 (h.getD 0 default) (by
        rw [List.getLast?_eq_getElem?, ← hlast, List.getD_eq_getElem _ _ (by omega),
          List.getElem?_eq_getElem (by omega)]
        exact rfl)
      exact this
    have p3 : (h.getD 0 default :: h2.dropLast).Perm h2 := by
      have : (h2.dropLast ++ [h.getD 0 default]).Perm ([h.getD 0 default] ++ h2.dropLast) :=
        List.perm_append_comm
      rw [hsplit] at this
      exact this.symm
    exact (p3.trans p2).symm
  · have hd : HeapUpTo h2 n := by
      refine down_heap n h1 0 n (by omega) (by omega) ?_ ?_
      · intro c hc0 hcn hp
        rw [h1def, key_Swap h 0 n _ hlen hn, key_Swap h 0 n _ hlen hn]
        have e1 : (c - 1) / 2 ≠ n := by omega
        have e2 : c ≠ n := by omega
        have e3 : c ≠ 0 := by omega
        simp only [e1, e2, e3, hp, if_false]
        exact hh c hc0 (by omega)
      · intro c _ _ _ h0
        omega
    intro c hc0 hcn
    have hdl : h2.dropLast.length = n := by simp [hl2, hndef]
    rw [hdl] at hcn
    rw [key_dropLast h2 c (by omega), key_dropLast h2 _ (by omega)]
    exact hd c hc0 hcn
  · intro y hy
    obtain ⟨k, hk, e⟩ := (mem_iff_getD h y).1 hy
    have := hh.root_le k hk
    unfold key at this
    rw [e] at this
    exact this

/-! ## The fuel of the sift loops is never short -/

/-- Any budget above the start index gives the same result of `up`: the loop
ends on its own before the budget is used up. -/
theorem up_fuel : ∀ (f1 f2 : Nat) (h : PriorityQueue) (j : Nat), j < f1 → j < f2 →
    up f1 h j = up f2 h j
  | 0, _, _, _, h1, _ => by omega
  | _ + 1, 0, _, _, _, h2 => by omega
  | f1 + 1, f2 + 1, h, j, h1, h2 => by
    unfold up
    simp only
    split_ifs with hb
    · rfl
    · have : (j - 1) / 2 ≠ j := fun e => hb (Or.inl e)
      exact up_fuel f1 f2 _ _ (by omega) (by omega)

/-- Any budget of at least `n - i` gives the same result of `down`. -/
theorem down_fuel : ∀ (f1 f2 : Nat) (h : PriorityQueue) (i n : Nat), n ≤ f1 + i →
    n ≤ f2 + i → down f1 h i n = down f2 h i n
  | 0, 0, _, _, _, _, _ => rfl
  | 0, f2 + 1, h, i, n, h1, _ => by
    unfold down
    simp only
    rw [if_pos (by omega)]
  | f1 + 1, 0, h, i, n, _, h2 => by
    unfold down
    simp only
    rw [if_pos (by omega)]
  | f1 + 1, f2 + 1, h, i, n, h1, h2 => by
    unfold down
    simp only
    split_ifs with hb hc hd hd
    · rfl
    · rfl
    · exact down_fuel f1 f2 _ _ _ (by omega) (by omega)
    · rfl
    · exact down_fuel f1 f2 _ _ _ (by omega) (by omega)

/-- Every queue built by `heap.Push` and `heap.Pop` from the empty queue is in
heap order. -/
theorem Reachable.isHeap {h : PriorityQueue} (hr : Reachable h) : IsHeap h := by
  induction hr with
  | empty => intro c _ hc; simp at hc
  | push h x _ ih => exact heapPush_heap h x ih
  | pop h h' x _ hp ih =>
    by_cases hne : h = []
    · subst hne
      simp [heapPop, PriorityQueue.Len] at hp
    · obtain ⟨h2, hpop, _, hheap, _⟩ := heapPop_spec h hne ih
      rw [hpop] at hp
      simp only [Option.some.injEq, Prod.mk.injEq] at hp
      rw [← hp.2]
      exact hheap

theorem runOps_isHeap : ∀ (ops : List HeapOp) (q0 : PriorityQueue) (p0 : List Node)
    (q : PriorityQueue) (p : List Node), IsHeap q0 → runOps ops q0 p0 = some (q, p) → IsHeap q
  | [], q0, p0, q, p, h0, hr => by
    simp only [runOps, Option.some.injEq, Prod.mk.injEq] at hr
    rw [← hr.1]; exact h0
  | HeapOp.push n :: ops, q0, p0, q, p, h0, hr => by
    simp only [runOps] at hr
    exact runOps_isHeap ops _ _ q p (heapPush_heap q0 n h0) hr
  | HeapOp.pop :: ops, q0, p0, q, p, h0, hr => by
    simp only [runOps] at hr
    by_cases hne : q0 = []
    · subst hne
      simp [heapPop, PriorityQueue.Len] at hr
    · obtain ⟨h2, hpop, _, hheap, _⟩ := heapPop_spec q0 hne h0
      rw [hpop] at hr
      exact runOps_isHeap ops _ _ q p hheap hr

/-! ## The neighbours of a cell -/

theorem index_eq_some (g : Game) (i j : Int) (r : CellRef) :
    g.index i j = some r ↔ (r.1.val : Int) = i ∧ (r.2.val : Int) = j := by
  unfold Game.index
  obtain ⟨⟨a, ha⟩, ⟨b, hb⟩⟩ := r
  split_ifs with h
  · simp only [Option.some.injEq, Prod.mk.injEq, Fin.mk.injEq]
    constructor
    · rintro ⟨e1, e2⟩
      constructor <;> omega
    · rintro ⟨e1, e2⟩
      constructor <;> omega
  · simp only [false_iff, not_and]
    intro e1 e2
    apply h
    simp only [gridSize] at ha hb ⊢
    omega

theorem index_isSome (g : Game) (i j : Int)
    (h : i ≥ 0 ∧ i < gridSize ∧ j ≥ 0 ∧ j < gridSize) : ∃ r, g.index i j = some r := by
  unfold Game.index
  rw [dif_pos (by omega)]
  exact ⟨_, rfl⟩

theorem index_eq_none (g : Game) (i j : Int)
    (h : ¬ (i ≥ 0 ∧ i < gridSize ∧ j ≥ 0 ∧ j < gridSize)) : g.index i j = none := by
  unfold Game.index
  rw [dif_neg (by omega)]

theorem neighborStep_eq (g : Game) (hwf : g.WF) (c : CellRef) (acc : List CellRef)
    (d : Int × Int) :
    neighborStep g c acc d = some (acc ++ (neighborAt g c d).toList) := by
  unfold neighborStep neighborAt
  have hx : (g.cell c).x = (c.1.val : Int) := (hwf c.1 c.2).1
  have hy : (g.cell c).y = (c.2.val : Int) := (hwf c.1 c.2).2
  simp only [hx, hy]
  by_cases hr : (c.1.val : Int) + d.1 ≥ 0 ∧ (c.1.val : Int) + d.1 < gridSize ∧
      (c.2.val : Int) + d.2 ≥ 0 ∧ (c.2.val : Int) + d.2 < gridSize
  · rw [if_pos hr]
    obtain ⟨r, hr2⟩ := index_isSome g _ _ hr
    rw [hr2]
    cases hw : (g.cell r).wall <;> simp [hw]
  · rw [if_neg hr, index_eq_none g _ _ hr]
    simp

theorem foldlM_neighborStep (g : Game) (hwf : g.WF) (c : CellRef) :
    ∀ (ds : List (Int × Int)) (acc : List CellRef),
      ds.foldlM (neighborStep g c) acc = some (acc ++ ds.filterMap (neighborAt g c))
  | [], acc => by simp
  | d :: ds, acc => by
    rw [List.foldlM_cons, neighborStep_eq g hwf, Option.bind_eq_bind, Option.some_bind,
      foldlM_neighborStep g hwf c ds]
    rw [List.filterMap_cons]
    cases h : neighborAt g c d <;> simp

/-- On a well-formed grid `getNeighbors` never indexes out of range and returns
the neighbours the specification lists. -/
theorem getNeighbors_eq (g : Game) (hwf : g.WF) (c : CellRef) :
    g.getNeighbors c = some (expectedNeighbors g c) := by
  unfold Game.getNeighbors expectedNeighbors
  rw [foldlM_neighborStep g hwf c dirs []]
  simp

theorem mem_expectedNeighbors (g : Game) (a b : CellRef) :
    b ∈ expectedNeighbors g a ↔ g.Step a b := by
  unfold expectedNeighbors Game.Step Adjacent
  rw [List.mem_filterMap]
  constructor
  · rintro ⟨d, hd, h⟩
    unfold neighborAt at h
    cases hi : g.index ((a.1.val : Int) + d.1) ((a.2.val : Int) + d.2) with
    | none => rw [hi] at h; simp at h
    | some r =>
      rw [hi] at h
      simp only at h
      cases hw : (g.cell r).wall
      · rw [hw] at h
        simp only [Bool.false_eq_true, if_false, Option.some.injEq] at h
        subst h
        obtain ⟨e1, e2⟩ := (index_eq_some g _ _ r).1 hi
        refine ⟨?_, hw⟩
        simp only [dirs, List.mem_cons, List.mem_singleton, List.not_mem_nil, or_false] at hd
        rcases hd with rfl | rfl | rfl | rfl <;> simp only at e1 e2 <;> omega
      · rw [hw] at h; simp at h
  · rintro ⟨hadj, hw⟩
    refine ⟨((b.1.val : Int) - a.1.val, (b.2.val : Int) - a.2.val), ?_, ?_⟩
    · simp only [dirs, List.mem_cons, List.mem_singleton, Prod.mk.injEq, List.not_mem_nil,
        or_false]
      omega
    · have : g.index ((a.1.val : Int) + ((b.1.val : Int) - a.1.val))
          ((a.2.val : Int) + ((b.2.val : Int) - a.2.val)) = some b :=
        (index_eq_some g _ _ b).2 ⟨by omega, by omega⟩
      unfold neighborAt
      simp only
      rw [this]
      simp [hw]

/-! ## Parent chains -/

theorem reconstruct_eq : ∀ (n : Node) (acc : List CellRef),
    reconstruct n acc = n.chain.reverse ++ acc
  | .mk _ _ _ none, acc => by simp [reconstruct, Node.chain]
  | .mk _ _ _ (some p), acc => by
    simp [reconstruct, Node.chain, reconstruct_eq p]

theorem chain_eq_cons : ∀ (n : Node), ∃ t, n.chain = n.cell :: t
  | .mk _ _ _ none => ⟨[], rfl⟩
  | .mk _ _ _ (some p) => ⟨p.chain, rfl⟩

theorem chain_length (g : Game) (s e : CellRef) : ∀ (n : Node), ValidNode g s e n →
    n.chain.length = n.gCost + 1
  | .mk c gc hc none, hv => by
    obtain ⟨_, h0, _⟩ := hv
    simp [Node.chain, Node.gCost, h0]
  | .mk c gc hc (some p), hv => by
    obtain ⟨_, h1, _, hp⟩ := hv
    simp [Node.chain, Node.gCost, h1, chain_length g s e p hp]

theorem chain_getLast (g : Game) (s e : CellRef) : ∀ (n : Node), ValidNode g s e n →
    n.chain.getLast? = some s
  | .mk c gc hc none, hv => by
    obtain ⟨h0, _, _⟩ := hv
    simp [Node.chain, h0]
  | .mk c gc hc (some p), hv => by
    obtain ⟨_, _, _, hp⟩ := hv
    obtain ⟨t, ht⟩ := chain_eq_cons p
    have := chain_getLast g s e p hp
    rw [ht] at this
    simp only [Node.chain, ht]
    rw [List.getLast?_cons_cons]
    exact this

theorem chain_steps (g : Game) (s e : CellRef) : ∀ (n : Node), ValidNode g s e n →
    List.Chain' (fun a b => g.Step b a) n.chain
  | .mk c gc hc none, _ => by simp [Node.chain]
  | .mk c gc hc (some p), hv => by
    obtain ⟨hs, _, _, hp⟩ := hv
    obtain ⟨t, ht⟩ := chain_eq_cons p
    have := chain_steps g s e p hp
    simp only [Node.chain]
    rw [ht] at this ⊢
    exact List.Chain'.cons hs this

theorem hCost_eq (g : Game) (s e : CellRef) : ∀ (n : Node), ValidNode g s e n →
    n.hCost = heuristic (g.cell n.cell) (g.cell e)
  | .mk _ _ _ none, hv => hv.2.2
  | .mk _ _ _ (some _), hv => hv.2.2.1

theorem card_cellRef : Fintype.card CellRef = gridSize * gridSize := by
  simp [CellRef]

/-- A node the search holds has `gCost` below the number of cells. -/
theorem NodeOK.gCost_lt {g : Game} {s e : CellRef} {st : SearchState} {n : Node}
    (h : NodeOK g s e st n) : n.gCost + 1 ≤ gridSize * gridSize := by
  rw [← chain_length g s e n h.valid, ← card_cellRef]
  exact h.nodup.length_le_card

/-! ## The heuristic on the grid -/

theorem wrapInt64_small (z : Int) (h1 : -9223372036854775808 ≤ z)
    (h2 : z < 9223372036854775808) : wrapInt64 z = z := by
  unfold wrapInt64
  omega

/-- The fuel `n` is enough for `excessBits`: after that many halvings the
mantissa is below `2^53`. -/
theorem excessBits_fuel : ∀ (fuel n : Nat), n ≤ fuel →
    n / 2 ^ excessBits fuel n < 9007199254740992
  | 0, n, h => by
    have : n = 0 := by omega
    subst this
    simp [excessBits]
  | fuel + 1, n, h => by
    unfold excessBits
    by_cases hn : n < 9007199254740992
    · rw [if_pos hn]
      simpa using hn
    · rw [if_neg hn]
      have ih := excessBits_fuel fuel (n / 2) (by omega)
      rw [pow_succ, Nat.mul_comm, ← Nat.div_div_eq_div_mul]
      exact ih

theorem roundFloat64_small (n : Nat) (h : n < 9007199254740992) : roundFloat64 n = n := by
  unfold roundFloat64
  rw [if_pos h]

/-- Below `2^52` per coordinate nothing wraps and nothing is rounded: the
heuristic is the Manhattan distance. -/
theorem heuristic_small (a b : Cell) (hx : (a.x - b.x).natAbs < 4503599627370496)
    (hy : (a.y - b.y).natAbs < 4503599627370496) :
    heuristic a b = (a.x - b.x).natAbs + (a.y - b.y).natAbs := by
  unfold heuristic
  simp only
  rw [wrapInt64_small (a.x - b.x) (by omega) (by omega),
    wrapInt64_small (a.y - b.y) (by omega) (by omega),
    roundFloat64_small (a.x - b.x).natAbs (by omega),
    roundFloat64_small (a.y - b.y).natAbs (by omega),
    roundFloat64_small _ (by omega)]

/-- On a well-formed grid the heuristic is the Manhattan distance of the
slots. -/
theorem heuristic_grid (g : Game) (hwf : g.WF) (a b : CellRef) :
    heuristic (g.cell a) (g.cell b) =
      ((a.1.val : Int) - b.1.val).natAbs + ((a.2.val : Int) - b.2.val).natAbs := by
  have h1 : a.1.val < 10 := a.1.isLt
  have h2 : a.2.val < 10 := a.2.isLt
  have h3 : b.1.val < 10 := b.1.isLt
  have h4 : b.2.val < 10 := b.2.isLt
  have hax : (g.cell a).x = (a.1.val : Int) := (hwf a.1 a.2).1
  have hay : (g.cell a).y = (a.2.val : Int) := (hwf a.1 a.2).2
  have hbx : (g.cell b).x = (b.1.val : Int) := (hwf b.1 b.2).1
  have hby : (g.cell b).y = (b.2.val : Int) := (hwf b.1 b.2).2
  rw [heuristic_small _ _ (by rw [hax, hbx]; omega) (by rw [hay, hby]; omega),
    hax, hay, hbx, hby]

theorem heuristic_step (g : Game) (hwf : g.WF) (a b e : CellRef) (hab : Adjacent a b) :
    heuristic (g.cell a) (g.cell e) ≤ 1 + heuristic (g.cell b) (g.cell e) := by
  rw [heuristic_grid g hwf a e, heuristic_grid g hwf b e]
  unfold Adjacent at hab
  omega

theorem heuristic_self (a : Cell) : heuristic a a = 0 := by
  simp [heuristic, wrapInt64, roundFloat64]

/-- Admissibility: the heuristic is at most the number of edges of any chain of
adjacent cells that ends in the goal. -/
theorem heuristic_le_chain (g : Game) (hwf : g.WF) (e : CellRef) :
    ∀ (rest : List CellRef) (c0 : CellRef), List.Chain Adjacent c0 rest →
      (c0 :: rest).getLast? = some e → heuristic (g.cell c0) (g.cell e) ≤ rest.length
  | [], c0, _, hl => by
    simp only [List.getLast?_singleton, Option.some.injEq] at hl
    subst hl
    simp [heuristic_self]
  | c1 :: rest, c0, hc, hl => by
    rw [List.chain_cons] at hc
    rw [List.getLast?_cons_cons] at hl
    have ih := heuristic_le_chain g hwf e rest c1 hc.2 hl
    have := heuristic_step g hwf c0 c1 e hc.1
    simp only [List.length_cons]
    omega

theorem chain_step_adjacent (g : Game) : ∀ (rest : List CellRef) (c0 : CellRef),
    List.Chain g.Step c0 rest → List.Chain Adjacent c0 rest
  | [], _, _ => List.Chain.nil
  | c1 :: rest, c0, hc => by
    rw [List.chain_cons] at hc ⊢
    exact ⟨hc.1.1, chain_step_adjacent g rest c1 hc.2⟩

/-! ## One relaxation -/

theorem Within.mono {st : SearchState} {c : CellRef} {b b' : Nat} (h : Within st c b)
    (hb : b ≤ b') : Within st c b' := by
  obtain ⟨gc, h1, h2⟩ := h
  exact ⟨gc, h1, by omega⟩

theorem relax_cases (g : Game) (e : CellRef) (current : Node) (st : SearchState)
    (w : CellRef) :
    (relax g e current st w = st ∧ Within st w (current.gCost + 1)) ∨
    (relax g e current st w = improved g e current st w ∧
      ∀ gw, st.gScore w = some gw → current.gCost + 1 < gw) := by
  unfold relax improved
  cases hw : st.gScore w with
  | none => right; simp
  | some gw =>
    by_cases hlt : current.gCost + 1 < gw
    · right; simp [hlt]
    · left
      simp only [hlt, decide_False, Bool.false_eq_true, if_false, true_and]
      exact ⟨gw, hw, by omega⟩

theorem within_improved {g : Game} {e : CellRef} {current : Node} {st : SearchState}
    {w : CellRef} (himp : ∀ gw, st.gScore w = some gw → current.gCost + 1 < gw)
    {c : CellRef} {b : Nat} (h : Within st c b) : Within (improved g e current st w) c b := by
  obtain ⟨gc, h1, h2⟩ := h
  by_cases hcw : c = w
  · subst hcw
    have := himp gc h1
    exact ⟨current.gCost + 1, by simp [improved], by omega⟩
  · exact ⟨gc, by simp [improved, Function.update_noteq hcw, h1], h2⟩

theorem within_improved_self (g : Game) (e : CellRef) (current : Node) (st : SearchState)
    (w : CellRef) : Within (improved g e current st w) w (current.gCost + 1) :=
  ⟨current.gCost + 1, by simp [improved], le_refl _⟩

theorem NodeOK.after {g : Game} {s e : CellRef} {current : Node} {st : SearchState}
    {w : CellRef} (himp : ∀ gw, st.gScore w = some gw → current.gCost + 1 < gw)
    {n : Node} (h : NodeOK g s e st n) : NodeOK g s e (improved g e current st w) n :=
  ⟨h.valid, h.nodup, fun c hc => within_improved himp (h.seen c hc)⟩

/-- The node created for an improving neighbour is one the search may hold. -/
theorem NodeOK.child {g : Game} {s e : CellRef} {current : Node} {st : SearchState}
    {w : CellRef} (himp : ∀ gw, st.gScore w = some gw → current.gCost + 1 < gw)
    (hcur : NodeOK g s e st current) (hstep : g.Step current.cell w) :
    NodeOK g s e (improved g e current st w)
      (Node.mk w (current.gCost + 1) (heuristic (g.cell w) (g.cell e)) (some current)) := by
  have hnot : w ∉ current.chain := by
    intro hmem
    obtain ⟨gw, h1, h2⟩ := hcur.seen w hmem
    have := himp gw h1
    omega
  refine ⟨⟨hstep, rfl, rfl, hcur.valid⟩, ?_, ?_⟩
  · simp only [Node.chain]
    exact List.nodup_cons.2 ⟨hnot, hcur.nodup⟩
  · intro c hc
    simp only [Node.chain, List.mem_cons] at hc
    simp only [Node.gCost]
    rcases hc with rfl | hc
    · exact within_improved_self g e current st c
    · have hle : Within st c (current.gCost + 1) := (hcur.seen c hc).mono (by omega)
      exact within_improved himp hle

theorem Expanding.relaxed {g : Game} {s e : CellRef} {st : SearchState} {current : Node}
    {done : List CellRef} (h : Expanding g s e st current done) (w : CellRef)
    (hstep : g.Step current.cell w) :
    Expanding g s e (relax g e current st w) current (done ++ [w]) := by
  rcases relax_cases g e current st w with ⟨heq, hw⟩ | ⟨heq, himp⟩
  · rw [heq]
    refine ⟨h.heap, h.nodes, h.cur, h.start, ?_⟩
    intro v gv hv
    rcases h.closed v gv hv with h1 | h2 | ⟨h3, h4, h5⟩
    · exact Or.inl h1
    · exact Or.inr (Or.inl h2)
    · refine Or.inr (Or.inr ⟨h3, h4, ?_⟩)
      intro w' hw'
      rcases List.mem_append.1 hw' with hm | hm
      · exact h5 w' hm
      · simp only [List.mem_singleton] at hm
        subst hm
        rw [h4]
        exact hw
  · rw [heq]
    have hmem : ∀ n, n ∈ (improved g e current st w).openSet ↔
        n = Node.mk w (current.gCost + 1) (heuristic (g.cell w) (g.cell e)) (some current) ∨
          n ∈ st.openSet := by
      intro n
      rw [show (improved g e current st w).openSet = heapPush st.openSet _ from rfl,
        (heapPush_perm _ _).mem_iff, List.mem_cons]
    refine ⟨heapPush_heap _ _ h.heap, ?_, h.cur.after himp, ?_, ?_⟩
    · intro n hn
      rcases (hmem n).1 hn with rfl | hn
      · exact NodeOK.child himp h.cur hstep
      · exact (h.nodes n hn).after himp
    · have hws : w ≠ s := by
        intro e1
        subst e1
        have := himp 0 h.start
        omega
      show Function.update st.gScore w _ s = some 0
      rw [Function.update_noteq (Ne.symm hws)]
      exact h.start
    · intro v gv hv
      by_cases hvw : v = w
      · subst hvw
        have hgv : gv = current.gCost + 1 := by
          have : (improved g e current st v).gScore v = some (current.gCost + 1) := by
            simp [improved]
          rw [this] at hv
          exact (Option.some.inj hv).symm
        exact Or.inl ⟨_, (hmem _).2 (Or.inl rfl), rfl, hgv.symm⟩
      · have hv' : st.gScore v = some gv := by
          have : (improved g e current st w).gScore v = st.gScore v := by
            simp [improved, Function.update_noteq hvw]
          rw [← this]; exact hv
        rcases h.closed v gv hv' with ⟨n, hn, h1⟩ | ⟨h2, h2'⟩ | ⟨h3, h4, h5⟩
        · exact Or.inl ⟨n, (hmem n).2 (Or.inr hn), h1⟩
        · exact Or.inr (Or.inl ⟨h2, fun w' hw' => within_improved himp (h2' w' hw')⟩)
        · refine Or.inr (Or.inr ⟨h3, h4, ?_⟩)
          intro w' hw'
          rcases List.mem_append.1 hw' with hm | hm
          · exact within_improved himp (h5 w' hm)
          · simp only [List.mem_singleton] at hm
            subst hm
            rw [h4]
            exact within_improved_self g e current st w'

/-! ## The termination measure -/

theorem sum_scoreOr_improved (g : Game) (e : CellRef) (current : Node) (st : SearchState)
    (w : CellRef) :
    (∑ c : CellRef, scoreOr (improved g e current st w) c) + scoreOr st w =
      (∑ c : CellRef, scoreOr st c) + (current.gCost + 1) := by
  have h1 := Finset.add_sum_erase Finset.univ (scoreOr (improved g e current st w))
    (Finset.mem_univ w)
  have h2 := Finset.add_sum_erase Finset.univ (scoreOr st) (Finset.mem_univ w)
  have h3 : ∑ x ∈ Finset.univ.erase w, scoreOr (improved g e current st w) x =
      ∑ x ∈ Finset.univ.erase w, scoreOr st x := by
    refine Finset.sum_congr rfl ?_
    intro x hx
    have hxw : x ≠ w := (Finset.mem_erase.1 hx).1
    simp [scoreOr, improved, Function.update_noteq hxw]
  have h4 : scoreOr (improved g e current st w) w = current.gCost + 1 := by
    simp [scoreOr, improved]
  omega

theorem heapPush_length (h : PriorityQueue) (x : Node) :
    (heapPush h x).length = h.length + 1 := by
  rw [(heapPush_perm h x).length_eq]
  simp

theorem potential_relax {g : Game} {s e : CellRef} {st : SearchState} {current : Node}
    {done : List CellRef} (h : Expanding g s e st current done) (w : CellRef)
    (hstep : g.Step current.cell w) :
    potential (relax g e current st w) ≤ potential st := by
  rcases relax_cases g e current st w with ⟨heq, _⟩ | ⟨heq, himp⟩
  · rw [heq]
  · rw [heq]
    have hsum := sum_scoreOr_improved g e current st w
    have hlen : (improved g e current st w).openSet.length = st.openSet.length + 1 :=
      heapPush_length _ _
    have hbound : current.gCost + 1 + 1 ≤ gridSize * gridSize :=
      (NodeOK.child himp h.cur hstep).gCost_lt
    have hold : current.gCost + 1 < scoreOr st w := by
      unfold scoreOr
      cases hw : st.gScore w with
      | none => simp only [Option.getD_none]; omega
      | some gw => simp only [Option.getD_some]; exact himp gw hw
    unfold potential
    omega

/-! ## The loop over the neighbours -/

theorem Expanding.afterAll {g : Game} {s e : CellRef} {current : Node} :
    ∀ (nbs done : List CellRef) (st : SearchState), Expanding g s e st current done →
      (∀ w ∈ nbs, g.Step current.cell w) →
      Expanding g s e (nbs.foldl (relax g e current) st) current (done ++ nbs) ∧
        potential (nbs.foldl (relax g e current) st) ≤ potential st
  | [], done, st, h, _ => by
    simp only [List.foldl_nil, List.append_nil]
    exact ⟨h, le_refl _⟩
  | w :: nbs, done, st, h, hst => by
    have hw := hst w (List.mem_cons_self _ _)
    have h1 := h.relaxed w hw
    have p1 := potential_relax h w hw
    obtain ⟨h2, p2⟩ := Expanding.afterAll nbs (done ++ [w]) _ h1
      (fun w' hw' => hst w' (List.mem_cons_of_mem _ hw'))
    simp only [List.foldl_cons]
    rw [List.append_assoc] at h2
    exact ⟨h2, le_trans p2 p1⟩

/-- Popping `current` off the frontier starts its expansion. -/
theorem Inv.pop {g : Game} {s e : CellRef} {st : SearchState} (h : Inv g s e st)
    (current : Node) (rest : PriorityQueue) (hperm : st.openSet.Perm (current :: rest))
    (hheap : IsHeap rest) :
    Expanding g s e { st with openSet := rest } current [] := by
  have hok : ∀ n, NodeOK g s e st n → NodeOK g s e { st with openSet := rest } n :=
    fun n hn => ⟨hn.valid, hn.nodup, fun c hc => hn.seen c hc⟩
  refine ⟨hheap, ?_, ?_, h.start, ?_⟩
  · intro n hn
    exact hok n (h.nodes n (hperm.mem_iff.2 (List.mem_cons_of_mem _ hn)))
  · exact hok current (h.nodes current (hperm.mem_iff.2 (List.mem_cons_self _ _)))
  · intro v gv hv
    rcases h.closed v gv hv with ⟨n, hn, h1, h2⟩ | ⟨h2, h3⟩
    · rcases List.mem_cons.1 (hperm.mem_iff.1 hn) with rfl | hn'
      · exact Or.inr (Or.inr ⟨h1.symm, h2.symm, fun w hw => by simp at hw⟩)
      · exact Or.inl ⟨n, hn', h1, h2⟩
    · exact Or.inr (Or.inl ⟨h2, fun w hw => h3 w hw⟩)

/-- When all neighbours of `current` are handled the loop invariant holds again. -/
theorem Expanding.finish {g : Game} {s e : CellRef} {st : SearchState} {current : Node}
    {done : List CellRef} (h : Expanding g s e st current done) (hne : current.cell ≠ e)
    (hall : ∀ w, g.Step current.cell w → w ∈ done) : Inv g s e st := by
  refine ⟨h.heap, h.nodes, h.start, ?_⟩
  intro v gv hv
  rcases h.closed v gv hv with h1 | h2 | ⟨h3, _, h5⟩
  · exact Or.inl h1
  · exact Or.inr h2
  · exact Or.inr ⟨by rw [h3]; exact hne, fun w hw => h5 w (hall w (by rw [← h3]; exact hw))⟩

/-! ## The state on entry to the loop -/

theorem heapPush_nil (x : Node) : heapPush (heapInit []) x = [x] := by
  simp [heapPush, heapInit, PriorityQueue.Push, PriorityQueue.Len, up]

theorem initState_inv (g : Game) (s e : CellRef) : Inv g s e (initState g s e) := by
  have hopen : (initState g s e).openSet =
      [Node.mk s 0 (heuristic (g.cell s) (g.cell e)) none] := heapPush_nil _
  have hscore : ∀ v, (initState g s e).gScore v = if v = s then some 0 else none := by
    intro v
    simp only [initState, Function.update_apply]
  refine ⟨?_, ?_, ?_, ?_⟩
  · rw [hopen]
    intro c hc0 hcn
    simp at hcn
    omega
  · intro n hn
    rw [hopen, List.mem_singleton] at hn
    subst hn
    refine ⟨⟨rfl, rfl, rfl⟩, by simp [Node.chain], ?_⟩
    intro c hc
    simp only [Node.chain, List.mem_singleton] at hc
    subst hc
    exact ⟨0, by rw [hscore]; simp, le_refl _⟩
  · rw [hscore]; simp
  · intro v gv hv
    rw [hscore] at hv
    by_cases hvs : v = s
    · rw [if_pos hvs] at hv
      left
      refine ⟨Node.mk s 0 (heuristic (g.cell s) (g.cell e)) none,
        by rw [hopen]; exact List.mem_singleton.2 rfl, hvs.symm, ?_⟩
      exact Option.some.inj hv
    · rw [if_neg hvs] at hv
      cases hv

theorem scoreOr_le (st : SearchState) (hb : ∀ c gc, st.gScore c = some gc →
    gc ≤ gridSize * gridSize) (c : CellRef) : scoreOr st c ≤ gridSize * gridSize := by
  unfold scoreOr
  cases h : st.gScore c with
  | none => simp
  | some gc => simpa using hb c gc h

theorem potential_initState (g : Game) (s e : CellRef) :
    potential (initState g s e) < fuelBound := by
  have hopen : (initState g s e).openSet.length = 1 := by
    rw [show (initState g s e).openSet = _ from heapPush_nil _]
    rfl
  have hle : ∀ c ∈ (Finset.univ : Finset CellRef),
      scoreOr (initState g s e) c ≤ gridSize * gridSize := by
    intro c _
    refine scoreOr_le _ ?_ c
    intro c gc hc
    simp only [initState, Function.update_apply] at hc
    split_ifs at hc
    · have := Option.some.inj hc
      omega
  have hsum : ∑ c : CellRef, scoreOr (initState g s e) c ≤
      gridSize * gridSize * (gridSize * gridSize) := by
    have := Finset.sum_le_card_nsmul _ _ _ hle
    rw [Finset.card_univ, card_cellRef, smul_eq_mul] at this
    exact this
  unfold potential fuelBound
  omega

/-! ## The frontier bounds every walk -/

/-- While the loop runs, every chain of moves from a cell with recorded
`gScore` `gv` to the goal passes a frontier node of `fCost` at most `gv` plus the
number of moves. -/
theorem frontier_bound (g : Game) (hwf : g.WF) (s e : CellRef) (st : SearchState)
    (hinv : Inv g s e st) :
    ∀ (rest : List CellRef) (c0 : CellRef) (gv : Nat), List.Chain g.Step c0 rest →
      (c0 :: rest).getLast? = some e → st.gScore c0 = some gv →
      ∃ n ∈ st.openSet, n.fCost ≤ gv + rest.length
  | [], c0, gv, _, hl, hg => by
    simp only [List.getLast?_singleton, Option.some.injEq] at hl
    subst hl
    rcases hinv.closed c0 gv hg with ⟨n, hn, h1, h2⟩ | ⟨h2, _⟩
    · refine ⟨n, hn, ?_⟩
      unfold Node.fCost
      rw [hCost_eq g s c0 n (hinv.nodes n hn).valid, h1, h2, heuristic_self]
      simp
    · exact absurd rfl h2
  | c1 :: rest, c0, gv, hc, hl, hg => by
    rcases hinv.closed c0 gv hg with ⟨n, hn, h1, h2⟩ | ⟨_, h3⟩
    · refine ⟨n, hn, ?_⟩
      have := heuristic_le_chain g hwf e (c1 :: rest) c0 (chain_step_adjacent g _ _ hc) hl
      unfold Node.fCost
      rw [hCost_eq g s e n (hinv.nodes n hn).valid, h1, h2]
      omega
    · rw [List.chain_cons] at hc
      rw [List.getLast?_cons_cons] at hl
      obtain ⟨g1, hg1, hle⟩ := h3 c1 hc.1
      obtain ⟨n, hn, hf⟩ := frontier_bound g hwf s e st hinv rest c1 g1 hc.2 hl hg1
      refine ⟨n, hn, ?_⟩
      simp only [List.length_cons]
      omega

/-! ## The main loop -/

theorem walk_frontier (g : Game) (hwf : g.WF) (s e : CellRef) (st : SearchState)
    (hinv : Inv g s e st) (w : List CellRef) (hw : g.Walk s e w) :
    ∃ n ∈ st.openSet, n.fCost + 1 ≤ w.length := by
  obtain ⟨hhead, hlast, hchain⟩ := hw
  cases w with
  | nil => simp at hhead
  | cons c0 rest =>
    simp only [List.head?_cons, Option.some.injEq] at hhead
    subst hhead
    obtain ⟨n, hn, hf⟩ := frontier_bound g hwf c0 e st hinv rest c0 0 hchain hlast hinv.start
    exact ⟨n, hn, by simp only [List.length_cons]; omega⟩

theorem potential_pop (st : SearchState) (current : Node) (rest : PriorityQueue)
    (hperm : st.openSet.Perm (current :: rest)) :
    potential { st with openSet := rest } + 1 = potential st := by
  have := hperm.length_eq
  simp only [List.length_cons] at this
  unfold potential scoreOr
  simp only
  omega

/-- The main loop, started in a state that satisfies the loop invariant with a
budget above the termination measure, ends without a fault: either with the nil
path, and then no walk leads from `s` to `e`, or with the reconstruction of a
node for `e` whose `gCost` is at most the number of edges of every such walk. -/
theorem aStarLoop_spec (g : Game) (hwf : g.WF) (s e : CellRef) :
    ∀ (fuel : Nat) (st : SearchState), Inv g s e st → potential st < fuel →
      (aStarLoop g e fuel st = .ok [] ∧ ∀ w, ¬ g.Walk s e w) ∨
      (∃ n, aStarLoop g e fuel st = .ok (reconstruct n []) ∧ ValidNode g s e n ∧
        n.cell = e ∧ n.chain.Nodup ∧ ∀ w, g.Walk s e w → n.gCost + 1 ≤ w.length)
  | 0, _, _, hpot => by omega
  | fuel + 1, st, hinv, hpot => by
    unfold aStarLoop
    by_cases hlen : st.openSet.Len > 0
    · rw [if_pos hlen]
      have hne : st.openSet ≠ [] := by
        intro h0
        rw [h0] at hlen
        simp [PriorityQueue.Len] at hlen
      obtain ⟨rest, hpop, hperm, hheap, hmin⟩ := heapPop_spec st.openSet hne hinv.heap
      rw [hpop]
      simp only
      have hcur : NodeOK g s e st (st.openSet.getD 0 default) :=
        hinv.nodes _ (hperm.mem_iff.2 (List.mem_cons_self _ _))
      by_cases hcell : (st.openSet.getD 0 default).cell = e
      · rw [if_pos hcell]
        right
        refine ⟨_, rfl, hcur.valid, hcell, hcur.nodup, ?_⟩
        intro w hw
        obtain ⟨n, hn, hf⟩ := walk_frontier g hwf s e st hinv w hw
        have h1 := hmin n hn
        have h2 : (st.openSet.getD 0 default).fCost = (st.openSet.getD 0 default).gCost := by
          unfold Node.fCost
          rw [hCost_eq g s e _ hcur.valid, hcell, heuristic_self]
          rfl
        omega
      · rw [if_neg hcell, getNeighbors_eq g hwf]
        simp only
        have hexp := hinv.pop _ rest hperm hheap
        obtain ⟨h2, p2⟩ := hexp.afterAll (expectedNeighbors g (st.openSet.getD 0 default).cell)
          [] _ (fun w hw => (mem_expectedNeighbors g _ w).1 hw)
        have hinv' := h2.finish hcell (fun w hw => by
          simpa using (mem_expectedNeighbors g _ w).2 hw)
        have p1 := potential_pop st _ rest hperm
        exact aStarLoop_spec g hwf s e fuel _ hinv' (by omega)
    · rw [if_neg hlen]
      left
      refine ⟨rfl, ?_⟩
      intro w hw
      obtain ⟨n, hn, _⟩ := walk_frontier g hwf s e st hinv w hw
      have h0 : st.openSet = [] := by
        cases h : st.openSet with
        | nil => rfl
        | cons a t => rw [h] at hlen; simp [PriorityQueue.Len] at hlen
      rw [h0] at hn
      simp at hn

/-- More fuel does not change a result that was reached. -/
theorem aStarLoop_fuel (g : Game) (e : CellRef) :
    ∀ (fuel : Nat) (st : SearchState) (r : List CellRef), aStarLoop g e fuel st = .ok r →
      ∀ k, aStarLoop g e (fuel + k) st = .ok r
  | 0, _, _, h, _ => by simp [aStarLoop] at h
  | fuel + 1, st, r, h, k => by
    rw [show fuel + 1 + k = (fuel + k) + 1 by omega]
    unfold aStarLoop at h ⊢
    by_cases hlen : st.openSet.Len > 0
    · rw [if_pos hlen] at h ⊢
      cases hp : heapPop st.openSet with
      | none => rw [hp] at h; simp at h
      | some cr =>
        obtain ⟨current, rest⟩ := cr
        rw [hp] at h
        simp only at h ⊢
        by_cases hcell : current.cell = e
        · rw [if_pos hcell] at h ⊢
          exact h
        · rw [if_neg hcell] at h ⊢
          cases hn : g.getNeighbors current.cell with
          | none => rw [hn] at h; simp at h
          | some nbs =>
            rw [hn] at h
            simp only at h ⊢
            exact aStarLoop_fuel g e fuel _ r h k
    · rw [if_neg hlen] at h ⊢
      exact h

/-- The search from `s` to `e` on a well-formed grid, with any budget from
`fuelBound` on. -/
theorem aStarFuel_spec (g : Game) (hwf : g.WF) (s e : CellRef) (hs : g.startPoint = some s)
    (he : g.endPoint = some e) (fuel : Nat) (hfuel : fuelBound ≤ fuel) :
    (aStarFuel fuel g = .ok [] ∧ ∀ w, ¬ g.Walk s e w) ∨
    (∃ n, aStarFuel fuel g = .ok (reconstruct n []) ∧ ValidNode g s e n ∧
      n.cell = e ∧ n.chain.Nodup ∧ ∀ w, g.Walk s e w → n.gCost + 1 ≤ w.length) := by
  unfold aStarFuel
  rw [hs, he]
  simp only
  have := potential_initState g s e
  exact aStarLoop_spec g hwf s e fuel _ (initState_inv g s e) (by omega)

theorem aStar_spec (g : Game) (hwf : g.WF) (s e : CellRef) (hs : g.startPoint = some s)
    (he : g.endPoint = some e) :
    (aStar g = .ok [] ∧ ∀ w, ¬ g.Walk s e w) ∨
    (∃ n, aStar g = .ok (reconstruct n []) ∧ ValidNode g s e n ∧
      n.cell = e ∧ n.chain.Nodup ∧ ∀ w, g.Walk s e w → n.gCost + 1 ≤ w.length) :=
  aStarFuel_spec g hwf s e hs he fuelBound (le_refl _)

/-- The search on a well-formed grid with both end points set always returns:
the budget `fuelBound` is never exhausted, no fault occurs, and every larger
budget gives the same result. -/
theorem aStar_total (g : Game) (hwf : g.WF) (s e : CellRef) (hs : g.startPoint = some s)
    (he : g.endPoint = some e) :
    ∃ p, aStar g = .ok p ∧ ∀ fuel, fuelBound ≤ fuel → aStarFuel fuel g = .ok p := by
  have hp : ∃ p, aStar g = .ok p := by
    rcases aStar_spec g hwf s e hs he with ⟨h0, _⟩ | ⟨n, hn, _⟩
    · exact ⟨_, h0⟩
    · exact ⟨_, hn⟩
  obtain ⟨p, hp⟩ := hp
  refine ⟨p, hp, fun fuel hfuel => ?_⟩
  unfold aStar aStarFuel at hp
  unfold aStarFuel
  rw [hs, he] at hp ⊢
  simp only at hp ⊢
  have := aStarLoop_fuel g e fuelBound _ p hp (fuel - fuelBound)
  rw [show fuelBound + (fuel - fuelBound) = fuel by omega] at this
  exact this

/-- The reconstruction of a node created by the search is a walk from `s` to
the node's cell with `gCost` edges. -/
theorem reconstruct_walk (g : Game) (s e : CellRef) (n : Node) (hv : ValidNode g s e n) :
    g.Walk s n.cell (reconstruct n []) ∧ (reconstruct n []).length = n.gCost + 1 := by
  rw [reconstruct_eq, List.append_nil]
  obtain ⟨t, ht⟩ := chain_eq_cons n
  refine ⟨⟨?_, ?_, ?_⟩, ?_⟩
  · rw [List.head?_reverse]
    exact chain_getLast g s e n hv
  · rw [List.getLast?_reverse, ht]
    rfl
  · rw [List.chain'_reverse]
    exact chain_steps g s e n hv
  · rw [List.length_reverse]
    exact chain_length g s e n hv

/-! ## Supporting facts for the claims -/

theorem chain_step_not_wall (g : Game) : ∀ (rest : List CellRef) (c0 : CellRef),
    List.Chain g.Step c0 rest → ∀ c ∈ rest, (g.cell c).wall = false
  | [], _, _, c, hc => by simp at hc
  | c1 :: rest, c0, h, c, hc => by
    rw [List.chain_cons] at h
    rcases List.mem_cons.1 hc with rfl | hc
    · exact h.1.2
    · exact chain_step_not_wall g rest c1 h.2 c hc

theorem adjacent_heuristic (g : Game) (hwf : g.WF) (a b : CellRef) (h : Adjacent a b) :
    heuristic (g.cell a) (g.cell b) = 1 := by
  rw [heuristic_grid g hwf a b]
  exact h

theorem neighborAt_eq_some (g : Game) (c : CellRef) (d : Int × Int) (r : CellRef)
    (h : neighborAt g c d = some r) :
    d = ((r.1.val : Int) - c.1.val, (r.2.val : Int) - c.2.val) := by
  unfold neighborAt at h
  cases hi : g.index ((c.1.val : Int) + d.1) ((c.2.val : Int) + d.2) with
  | none => rw [hi] at h; simp at h
  | some r' =>
    rw [hi] at h
    simp only at h
    split_ifs at h
    simp only [Option.some.injEq] at h
    subst h
    obtain ⟨e1, e2⟩ := (index_eq_some g _ _ r').1 hi
    ext <;> simp only <;> omega

theorem expectedNeighbors_nodup (g : Game) (c : CellRef) : (expectedNeighbors g c).Nodup := by
  unfold expectedNeighbors
  refine List.Nodup.filterMap ?_ (by decide)
  intro d d' r h1 h2
  rw [neighborAt_eq_some g c d r (by simpa using h1),
    neighborAt_eq_some g c d' r (by simpa using h2)]

/-! ## The claims -/

/-- A non-nil result of `aStar` is the reconstruction of a node that the search
created for the end cell, and that node's `gCost` is minimal among walks. -/
theorem aStar_ok_node (g : Game) (hwf : g.WF) (s e : CellRef) (hs : g.startPoint = some s)
    (he : g.endPoint = some e) (p : List CellRef) (hp : aStar g = .ok p) (hne : p ≠ []) :
    ∃ n, p = reconstruct n [] ∧ ValidNode g s e n ∧ n.cell = e ∧
      ∀ w, g.Walk s e w → n.gCost + 1 ≤ w.length := by
  rcases aStar_spec g hwf s e hs he with ⟨h0, _⟩ | ⟨n, hn, hv, hcell, _, hopt⟩
  · rw [h0] at hp
    exact absurd (Result.ok.inj hp).symm hne
  · rw [hn] at hp
    exact ⟨n, (Result.ok.inj hp).symm, hv, hcell, hopt⟩

/-- A non-nil result of `aStar` is a walk from the start to the end cell. -/
theorem aStar_ok_walk (g : Game) (hwf : g.WF) (s e : CellRef) (hs : g.startPoint = some s)
    (he : g.endPoint = some e) (p : List CellRef) (hp : aStar g = .ok p) (hne : p ≠ []) :
    g.Walk s e p := by
  obtain ⟨n, hpn, hv, hcell, _⟩ := aStar_ok_node g hwf s e hs he p hp hne
  have hwalk := (reconstruct_walk g s e n hv).1
  rw [hcell, ← hpn] at hwalk
  exact hwalk

/-- C1 (optimality).  On every well-formed grid and for every start and end cell,
a non-nil path returned by `aStar` is itself a walk from start to end and has no
more edges than any walk from start to end through orthogonally adjacent cells
whose cells after the first are not walls. -/
theorem aStar_optimal (g : Game) (hwf : g.WF) (s e : CellRef) (hs : g.startPoint = some s)
    (he : g.endPoint = some e) (p : List CellRef) (hp : aStar g = .ok p) (hne : p ≠ []) :
    g.Walk s e p ∧ ∀ w, g.Walk s e w → p.length - 1 ≤ w.length - 1 := by
  obtain ⟨n, hpn, hv, _, hopt⟩ := aStar_ok_node g hwf s e hs he p hp hne
  refine ⟨aStar_ok_walk g hwf s e hs he p hp hne, fun w hw => ?_⟩
  have hlen := (reconstruct_walk g s e n hv).2
  rw [← hpn] at hlen
  have := hopt w hw
  omega

/-- C2 (validity).  When the start and the end cell are not walls, every path
returned by `aStar` consists of cells whose coordinates lie inside the grid and
that are not walls, and consecutive cells of the path are at Manhattan distance
exactly `1`. -/
theorem aStar_valid (g : Game) (hwf : g.WF) (s e : CellRef) (hs : g.startPoint = some s)
    (he : g.endPoint = some e) (hsw : (g.cell s).wall = false)
    (_hew : (g.cell e).wall = false) (p : List CellRef) (hp : aStar g = .ok p) :
    (∀ c ∈ p, 0 ≤ (g.cell c).x ∧ (g.cell c).x < gridSize ∧ 0 ≤ (g.cell c).y ∧
      (g.cell c).y < gridSize ∧ (g.cell c).wall = false) ∧
    List.Chain' (fun a b => heuristic (g.cell a) (g.cell b) = 1) p := by
  have hin : ∀ c : CellRef, 0 ≤ (g.cell c).x ∧ (g.cell c).x < gridSize ∧ 0 ≤ (g.cell c).y ∧
      (g.cell c).y < gridSize := by
    intro c
    unfold Game.cell
    rw [(hwf c.1 c.2).1, (hwf c.1 c.2).2]
    have h1 := c.1.isLt
    have h2 := c.2.isLt
    omega
  by_cases hne : p = []
  · subst hne
    simp
  · obtain ⟨hhead, _, hchain⟩ := aStar_ok_walk g hwf s e hs he p hp hne
    cases p with
    | nil => exact absurd rfl hne
    | cons c0 rest =>
      simp only [List.head?_cons, Option.some.injEq] at hhead
      subst hhead
      constructor
      · intro c hc
        obtain ⟨h1, h2, h3, h4⟩ := hin c
        refine ⟨h1, h2, h3, h4, ?_⟩
        rcases List.mem_cons.1 hc with rfl | hc
        · exact hsw
        · exact chain_step_not_wall g rest c0 hchain c hc
      · exact List.Chain'.imp (fun a b hab => adjacent_heuristic g hwf a b hab.1) hchain

/-- C3 (completeness).  If some walk leads from start to end through
orthogonally adjacent cells whose cells after the first are not walls, `aStar`
returns a non-nil path; it returns nil only when there is no such walk. -/
theorem aStar_complete (g : Game) (hwf : g.WF) (s e : CellRef) (hs : g.startPoint = some s)
    (he : g.endPoint = some e) :
    ((∃ w, g.Walk s e w) → ∃ p, aStar g = .ok p ∧ p ≠ []) ∧
    (aStar g = .ok [] → ¬ ∃ w, g.Walk s e w) := by
  rcases aStar_spec g hwf s e hs he with ⟨h0, hno⟩ | ⟨n, hn, hv, _, _, _⟩
  · refine ⟨?_, ?_⟩
    · rintro ⟨w, hw⟩
      exact absurd hw (hno w)
    · rintro _ ⟨w, hw⟩
      exact hno w hw
  · have hlen := (reconstruct_walk g s e n hv).2
    have hne : reconstruct n [] ≠ [] := by
      intro h0
      rw [h0] at hlen
      simp at hlen
    refine ⟨fun _ => ⟨_, hn, hne⟩, ?_⟩
    intro h0
    rw [hn] at h0
    exact absurd (Result.ok.inj h0) hne

/-- C4 (no path).  For different start and end cells, when no walk leads from
start to end through non-wall cells, and in particular when no orthogonal
neighbour of start inside the grid is free of a wall, `aStar` returns nil and
does so without a fault. -/
theorem aStar_no_path (g : Game) (hwf : g.WF) (s e : CellRef) (hs : g.startPoint = some s)
    (he : g.endPoint = some e) (hse : s ≠ e) :
    ((∀ w, ¬ g.Walk s e w) → aStar g = .ok []) ∧
    ((∀ c, ¬ g.Step s c) → aStar g = .ok []) := by
  have main : (∀ w, ¬ g.Walk s e w) → aStar g = .ok [] := by
    intro hno
    rcases aStar_spec g hwf s e hs he with ⟨h0, _⟩ | ⟨n, _, hv, hcell, _, _⟩
    · exact h0
    · have hwalk := (reconstruct_walk g s e n hv).1
      rw [hcell] at hwalk
      exact absurd hwalk (hno _)
  refine ⟨main, fun hencl => main ?_⟩
  rintro w ⟨hhead, hlast, hchain⟩
  cases w with
  | nil => simp at hhead
  | cons c0 rest =>
    simp only [List.head?_cons, Option.some.injEq] at hhead
    subst hhead
    cases rest with
    | nil =>
      simp only [List.getLast?_singleton, Option.some.injEq] at hlast
      exact hse hlast
    | cons c1 rest =>
      rw [List.chain'_cons] at hchain
      exact hencl c1 hchain.1

/-- C5 (endpoints).  Every non-nil path returned by `aStar` starts with the start
cell and ends with the end cell. -/
theorem aStar_endpoints (g : Game) (hwf : g.WF) (s e : CellRef) (hs : g.startPoint = some s)
    (he : g.endPoint = some e) (p : List CellRef) (hp : aStar g = .ok p) (hne : p ≠ []) :
    p.head? = some s ∧ p.getLast? = some e := by
  obtain ⟨h1, h2, _⟩ := aStar_ok_walk g hwf s e hs he p hp hne
  exact ⟨h1, h2⟩

theorem heapPush_ne_nil (h : PriorityQueue) (x : Node) : heapPush h x ≠ [] := by
  intro h0
  have := heapPush_length h x
  rw [h0] at this
  simp at this

theorem heapPop_singleton (x : Node) : heapPop [x] = some (x, []) := by
  simp [heapPop, PriorityQueue.Len, PriorityQueue.Swap, PriorityQueue.Pop, down]

/-- C6 (start = end).  When `startPoint` and `endPoint` are the same cell `c`,
`aStar` returns exactly `[c]`, whatever the wall flags are, and the first
iteration of the main loop, that is the first pop, already returns it. -/
theorem aStar_start_eq_end (g : Game) (c : CellRef) (hs : g.startPoint = some c)
    (he : g.endPoint = some c) :
    aStar g = .ok [c] ∧ aStarFuel 1 g = .ok [c] := by
  have key : ∀ fuel, aStarFuel (fuel + 1) g = .ok [c] := by
    intro fuel
    unfold aStarFuel
    rw [hs, he]
    simp only
    unfold aStarLoop
    have hopen : (initState g c c).openSet =
        [Node.mk c 0 (heuristic (g.cell c) (g.cell c)) none] := heapPush_nil _
    rw [hopen, heapPop_singleton]
    simp [PriorityQueue.Len, Node.cell, reconstruct]
  exact ⟨key (fuelBound - 1), key 0⟩

/-- C7 (neighbours).  On a well-formed grid `getNeighbors c` never indexes the
grid out of range and returns exactly the slots `(c.x + dx, c.y + dy)` for
`(dx, dy)` in the order `(0,1), (1,0), (0,-1), (-1,0)` that lie inside the grid
and are not walls; the list has at most four cells, no cell twice, and every cell
of it is at Manhattan distance `1` from `c` (no diagonal cell) and not a wall. -/
theorem getNeighbors_spec (g : Game) (hwf : g.WF) (c : CellRef) :
    g.getNeighbors c = some (expectedNeighbors g c) ∧
    (expectedNeighbors g c).length ≤ 4 ∧ (expectedNeighbors g c).Nodup ∧
    ∀ n ∈ expectedNeighbors g c,
      heuristic (g.cell c) (g.cell n) = 1 ∧ (g.cell n).wall = false := by
  refine ⟨getNeighbors_eq g hwf c, ?_, expectedNeighbors_nodup g c, ?_⟩
  · exact le_trans (List.length_filterMap_le _ _) (by decide)
  · intro n hn
    have hstep := (mem_expectedNeighbors g c n).1 hn
    exact ⟨adjacent_heuristic g hwf c n hstep.1, hstep.2⟩

/-- Wrapping at work: from the largest to the smallest `int` the difference of
the columns wraps to `-1`, and `heuristic` returns `1`. -/
theorem heuristic_wraps :
    heuristic { originCell with x := 9223372036854775807 }
      { originCell with x := -9223372036854775808 } = 1 := by
  decide

/-- C9 (popMin).  On every non-empty queue built from the empty queue by
`heap.Push` and `heap.Pop`, `heap.Pop` returns a node whose `fCost` is at most
the `fCost` of every node left in the queue, and the queue before the call
holds exactly that node together with the nodes left. -/
theorem heapPop_min (h : PriorityQueue) (hr : Reachable h) (hne : h ≠ []) :
    ∃ x h', heapPop h = some (x, h') ∧ (∀ y ∈ h', x.fCost ≤ y.fCost) ∧
      h.Perm (x :: h') := by
  obtain ⟨h', hpop, hperm, _, hmin⟩ := heapPop_spec h hne hr.isHeap
  exact ⟨_, h', hpop, fun y hy => hmin y (hperm.mem_iff.2 (List.mem_cons_of_mem _ hy)), hperm⟩

/-- C10, as amended.  After every sequence of `heap.Push` and `heap.Pop`
operations on a queue that started empty, `heap.Pop` on the non-empty result
returns the node at position `0` of the slice, and no node of the queue has a
smaller `fCost`: equal keys are resolved by the position in the heap, not by the
order of insertion. -/
theorem heapPop_root_least (ops : List HeapOp) (q : PriorityQueue) (popped : List Node)
    (hrun : runOps ops [] [] = some (q, popped)) (hne : q ≠ []) :
    ∃ q', heapPop q = some (q.getD 0 default, q') ∧
      ∀ y ∈ q, (q.getD 0 default).fCost ≤ y.fCost := by
  have hheap : IsHeap q :=
    runOps_isHeap ops [] [] q popped (by intro c _ hc; simp at hc) hrun
  obtain ⟨q', hpop, _, _, hmin⟩ := heapPop_spec q hne hheap
  exact ⟨q', hpop, hmin⟩

/-- C10, counterexample.  Pushing `tieA`, `tieB`, `tieC`, three different nodes
of equal `fCost`, and popping twice returns `tieA` and then `tieC`: `tieC` leaves
the queue before `tieB`, which was pushed earlier. -/
theorem fifo_among_equal_keys_fails : ¬ FifoAmongEqualKeys := by
  intro hfifo
  have hab : tieA ≠ tieB := fun h => absurd (congrArg Node.cell h) (by decide)
  have hac : tieA ≠ tieC := fun h => absurd (congrArg Node.cell h) (by decide)
  have hbc : tieB ≠ tieC := fun h => absurd (congrArg Node.cell h) (by decide)
  have hnodup : (pushedNodes [HeapOp.push tieA, HeapOp.push tieB, HeapOp.push tieC,
      HeapOp.pop, HeapOp.pop]).Nodup := by
    simp [pushedNodes, hab, hac, hbc]
  obtain ⟨m, hm, hpm⟩ := hfifo
    [HeapOp.push tieA, HeapOp.push tieB, HeapOp.push tieC, HeapOp.pop, HeapOp.pop]
    [tieB] [tieA, tieC] hnodup rfl 1 2 1 (by decide) (by decide) (by decide) rfl rfl
  have hm0 : m = 0 := by omega
  subst hm0
  exact hab hpm

/-! ## The claims at concrete inputs -/

/-- The search on `detourGame` goes around the wall. -/
theorem detourGame_run :
    aStar detourGame = .ok [(0, 0), (1, 0), (1, 1), (1, 2), (0, 2)] := by
  rfl

/-- C1 at `detourGame`: the returned path has four edges and is a walk, and no
walk has fewer. -/
theorem aStar_optimal_witness :
    detourGame.WF ∧ aStar detourGame = .ok [(0, 0), (1, 0), (1, 1), (1, 2), (0, 2)] ∧
    (detourGame.Walk (0, 0) (0, 2) [(0, 0), (1, 0), (1, 1), (1, 2), (0, 2)] ∧
      ∀ w, detourGame.Walk (0, 0) (0, 2) w →
        [((0 : Fin gridSize), (0 : Fin gridSize)), (1, 0), (1, 1), (1, 2), (0, 2)].length - 1
          ≤ w.length - 1) :=
  ⟨by decide, detourGame_run,
    aStar_optimal detourGame (by decide) (0, 0) (0, 2) rfl rfl _ detourGame_run (by simp)⟩

/-- C2 at `detourGame`. -/
theorem aStar_valid_witness :
    detourGame.WF ∧ (detourGame.cell (0, 0)).wall = false ∧
    (detourGame.cell (0, 2)).wall = false ∧
    ((∀ c ∈ [((0 : Fin gridSize), (0 : Fin gridSize)), (1, 0), (1, 1), (1, 2), (0, 2)],
      0 ≤ (detourGame.cell c).x ∧ (detourGame.cell c).x < gridSize ∧
      0 ≤ (detourGame.cell c).y ∧ (detourGame.cell c).y < gridSize ∧
      (detourGame.cell c).wall = false) ∧
    List.Chain' (fun a b => heuristic (detourGame.cell a) (detourGame.cell b) = 1)
      [(0, 0), (1, 0), (1, 1), (1, 2), (0, 2)]) :=
  ⟨by decide, by decide, by decide,
    aStar_valid detourGame (by decide) (0, 0) (0, 2) rfl rfl (by decide) (by decide) _
      detourGame_run⟩

/-- C3 at `detourGame`: a walk exists, so a non-nil path is returned. -/
theorem aStar_complete_witness :
    detourGame.WF ∧ detourGame.Walk (0, 0) (0, 2) [(0, 0), (1, 0), (1, 1), (1, 2), (0, 2)] ∧
    ∃ p, aStar detourGame = .ok p ∧ p ≠ [] :=
  ⟨by decide, by decide,
    (aStar_complete detourGame (by decide) (0, 0) (0, 2) rfl rfl).1
      ⟨[(0, 0), (1, 0), (1, 1), (1, 2), (0, 2)], by decide⟩⟩

/-- C4 at `enclosedGame`: the start is walled in and the search returns nil. -/
theorem aStar_no_path_witness :
    enclosedGame.WF ∧ (∀ c, ¬ enclosedGame.Step (0, 0) c) ∧ aStar enclosedGame = .ok [] :=
  ⟨by decide, by decide,
    (aStar_no_path enclosedGame (by decide) (0, 0) (2, 2) rfl rfl (by decide)).2 (by decide)⟩

/-- C5 at `detourGame`. -/
theorem aStar_endpoints_witness :
    detourGame.WF ∧
    [((0 : Fin gridSize), (0 : Fin gridSize)), (1, 0), (1, 1), (1, 2), (0, 2)].head?
      = some (0, 0) ∧
    [((0 : Fin gridSize), (0 : Fin gridSize)), (1, 0), (1, 1), (1, 2), (0, 2)].getLast?
      = some (0, 2) :=
  ⟨by decide,
    aStar_endpoints detourGame (by decide) (0, 0) (0, 2) rfl rfl _ detourGame_run (by simp)⟩

/-- C6 at `sameCellGame`, whose single start and end cell is a wall. -/
theorem aStar_start_eq_end_witness :
    (sameCellGame.cell (3, 4)).wall = true ∧
    (aStar sameCellGame = .ok [(3, 4)] ∧ aStarFuel 1 sameCellGame = .ok [(3, 4)]) :=
  ⟨by decide, aStar_start_eq_end sameCellGame (3, 4) rfl rfl⟩

/-- C7 at the corner `(0,0)` of `detourGame`, where `(0,1)` is a wall. -/
theorem getNeighbors_spec_witness :
    detourGame.WF ∧ expectedNeighbors detourGame (0, 0) = [(1, 0)] ∧
    (detourGame.getNeighbors (0, 0) = some (expectedNeighbors detourGame (0, 0)) ∧
    (expectedNeighbors detourGame (0, 0)).length ≤ 4 ∧
    (expectedNeighbors detourGame (0, 0)).Nodup ∧
    ∀ n ∈ expectedNeighbors detourGame (0, 0),
      heuristic (detourGame.cell (0, 0)) (detourGame.cell n) = 1 ∧
        (detourGame.cell n).wall = false) :=
  ⟨by decide, by decide, getNeighbors_spec detourGame (by decide) (0, 0)⟩

/-- C9 at the queue that holds `tieA` and `tieB`. -/
theorem heapPop_min_witness :
    heapPush (heapPush [] tieA) tieB ≠ [] ∧
    ∃ x h', heapPop (heapPush (heapPush [] tieA) tieB) = some (x, h') ∧
      (∀ y ∈ h', x.fCost ≤ y.fCost) ∧ (heapPush (heapPush [] tieA) tieB).Perm (x :: h') :=
  ⟨heapPush_ne_nil _ _,
    heapPop_min _ (Reachable.push _ _ (Reachable.push _ _ Reachable.empty))
      (heapPush_ne_nil _ _)⟩

/-- C10 as amended, after the pushes of `tieA`, `tieB` and `tieC`. -/
theorem heapPop_root_least_witness :
    runOps [HeapOp.push tieA, HeapOp.push tieB, HeapOp.push tieC] [] []
      = some ([tieA, tieB, tieC], []) ∧
    ∃ q', heapPop [tieA, tieB, tieC] = some (([tieA, tieB, tieC] : PriorityQueue).getD 0 default, q') ∧
      ∀ y ∈ ([tieA, tieB, tieC] : PriorityQueue),
        (([tieA, tieB, tieC] : PriorityQueue).getD 0 default).fCost ≤ y.fCost :=
  ⟨rfl, heapPop_root_least [HeapOp.push tieA, HeapOp.push tieB, HeapOp.push tieC]
    [tieA, tieB, tieC] [] rfl (by simp)⟩

/-! ## The method `Update` -/

theorem cell_setCell (g g' : Game) (r : CellRef) (f : Cell → Cell)
    (hg : g'.grid = g.setCell r f) (c : CellRef) :
    g'.cell c = if c = r then f (g.cell c) else g.cell c := by
  unfold Game.cell
  rw [hg]
  unfold Game.setCell
  simp

/-- The four things a click that returns can do. -/
theorem click_cases (g g' : Game) (inp : Input) (h : g.click inp = .ok g') :
    g' = g ∨ ∃ cell : CellRef,
      inp.left = true ∧
      g.index (Int.tdiv inp.x cellSize) (Int.tdiv inp.y cellSize) = some cell ∧
      ((g.startPoint = none ∧
          g'.grid = g.setCell cell (fun c => { c with start := true }) ∧
          g'.startPoint = some cell ∧ g'.endPoint = g.endPoint) ∨
       (g.startPoint ≠ none ∧ g.endPoint = none ∧
          g'.grid = g.setCell cell (fun c => { c with isEnd := true }) ∧
          g'.startPoint = g.startPoint ∧ g'.endPoint = some cell) ∨
       (g.startPoint ≠ none ∧ g.endPoint ≠ none ∧
          g'.grid = g.setCell cell (fun c => { c with wall := true }) ∧
          g'.startPoint = g.startPoint ∧ g'.endPoint = g.endPoint)) := by
  unfold Game.click at h
  by_cases hl : inp.left = true
  · rw [if_pos hl] at h
    simp only at h
    by_cases hr : Int.tdiv inp.x cellSize < gridSize ∧ Int.tdiv inp.y cellSize < gridSize
    · rw [if_pos hr] at h
      cases hi : g.index (Int.tdiv inp.x cellSize) (Int.tdiv inp.y cellSize) with
      | none => rw [hi] at h; simp at h
      | some cell =>
        rw [hi] at h
        simp only at h
        right
        refine ⟨cell, hl, rfl, ?_⟩
        by_cases hs : g.startPoint = none
        · rw [if_pos hs] at h
          rw [← Result.ok.inj h]
          exact Or.inl ⟨hs, rfl, rfl, rfl⟩
        · rw [if_neg hs] at h
          by_cases he : g.endPoint = none
          · rw [if_pos he] at h
            rw [← Result.ok.inj h]
            exact Or.inr (Or.inl ⟨hs, he, rfl, rfl, rfl⟩)
          · rw [if_neg he] at h
            rw [← Result.ok.inj h]
            exact Or.inr (Or.inr ⟨hs, he, rfl, rfl, rfl⟩)
    · rw [if_neg hr] at h
      exact Or.inl (Result.ok.inj h).symm
  · rw [if_neg hl] at h
    exact Or.inl (Result.ok.inj h).symm

/-- Writing a flag of one cell keeps the coordinates of all cells. -/
theorem WF_setCell (g g' : Game) (hwf : g.WF) (cell : CellRef) (f : Cell → Cell)
    (hg : g'.grid = g.setCell cell f) (hf : ∀ c, (f c).x = c.x ∧ (f c).y = c.y) : g'.WF := by
  intro i j
  rw [hg]
  unfold Game.setCell
  split_ifs
  · rw [(hf _).1, (hf _).2]
    exact hwf i j
  · exact hwf i j

/-- The search part of `Update` writes `path`, `currentStep` and `lastUpdate`
only. -/
theorem search_frame (g g' : Game) (inp : Input) (h : g.search inp = .ok g') :
    g'.grid = g.grid ∧ g'.startPoint = g.startPoint ∧ g'.endPoint = g.endPoint := by
  unfold Game.search at h
  split_ifs at h
  · cases ha : aStar g with
    | ok p =>
      rw [ha] at h
      simp only at h
      rw [← Result.ok.inj h]
      exact ⟨rfl, rfl, rfl⟩
    | fault => rw [ha] at h; simp at h
    | outOfFuel => rw [ha] at h; simp at h
  · rw [← Result.ok.inj h]
    exact ⟨rfl, rfl, rfl⟩

theorem animate_frame (g : Game) (inp : Input) :
    (g.animate inp).grid = g.grid ∧ (g.animate inp).startPoint = g.startPoint ∧
      (g.animate inp).endPoint = g.endPoint := by
  unfold Game.animate
  split_ifs <;> exact ⟨rfl, rfl, rfl⟩

/-- A call of `Update` that returns is a click that returns, followed by steps
that leave the grid and the two role pointers alone. -/
theorem Update_click (g g' : Game) (inp : Input) (h : g.Update inp = .ok g') :
    ∃ g1, g.click inp = .ok g1 ∧ g'.grid = g1.grid ∧ g'.startPoint = g1.startPoint ∧
      g'.endPoint = g1.endPoint := by
  unfold Game.Update at h
  cases hc : g.click inp with
  | ok g1 =>
    rw [hc] at h
    simp only at h
    cases hs : g1.search inp with
    | ok g2 =>
      rw [hs] at h
      simp only at h
      obtain ⟨a1, a2, a3⟩ := search_frame g1 g2 inp hs
      obtain ⟨b1, b2, b3⟩ := animate_frame g2 inp
      rw [← Result.ok.inj h]
      exact ⟨g1, rfl, b1.trans a1, b2.trans a2, b3.trans a3⟩
    | fault => rw [hs] at h; simp at h
    | outOfFuel => rw [hs] at h; simp at h
  | fault => rw [hc] at h; simp at h
  | outOfFuel => rw [hc] at h; simp at h

theorem GameInv.congr {g g' : Game} (h : GameInv g) (h1 : g'.grid = g.grid)
    (h2 : g'.startPoint = g.startPoint) (h3 : g'.endPoint = g.endPoint) : GameInv g' := by
  have hcell : ∀ c, g'.cell c = g.cell c := by
    intro c; unfold Game.cell; rw [h1]
  refine ⟨?_, ?_, ?_, ?_, ?_⟩
  · intro i j; rw [h1]; exact h.wf i j
  · intro c; rw [hcell, h2]; exact h.startFlag c
  · intro c; rw [hcell, h3]; exact h.endFlag c
  · intro hn c; rw [hcell]; rw [h2, h3] at hn; exact h.noWallEarly hn c
  · intro hn; rw [h2] at hn; rw [h3]; exact h.startFirst hn

theorem NewGame_inv (now : Nat) : GameInv (NewGame now) := by
  refine ⟨?_, ?_, ?_, ?_, ?_⟩
  · intro i j; exact ⟨rfl, rfl⟩
  · intro c; simp [NewGame, Game.cell]
  · intro c; simp [NewGame, Game.cell]
  · intro _ c; rfl
  · intro _; rfl

theorem GameInv.click {g g' : Game} (h : GameInv g) (inp : Input)
    (hc : g.click inp = .ok g') : GameInv g' := by
  rcases click_cases g g' inp hc with rfl | ⟨cell, _, _, hcase⟩
  · exact h
  · rcases hcase with ⟨hs, hg, hsp, hep⟩ | ⟨hs, he, hg, hsp, hep⟩ | ⟨hs, he, hg, hsp, hep⟩
    · have hend := h.startFirst hs
      have hcell := cell_setCell g g' cell _ hg
      refine ⟨WF_setCell g g' h.wf cell _ hg (fun c => ⟨rfl, rfl⟩), ?_, ?_, ?_, ?_⟩
      · intro c
        rw [hcell c, hsp]
        by_cases hcc : c = cell
        · rw [if_pos hcc, hcc]
          simp
        · rw [if_neg hcc]
          have := h.startFlag c
          rw [hs] at this
          constructor
          · intro h1; exact absurd (this.1 h1) (by simp)
          · intro h1; exact absurd (Option.some.inj h1).symm hcc
      · intro c
        rw [hcell c, hep, ← h.endFlag c]
        split_ifs <;> rfl
      · intro _ c
        rw [hcell c]
        have := h.noWallEarly (Or.inl hs) c
        split_ifs <;> exact this
      · intro hn
        rw [hsp] at hn
        cases hn
    · have hcell := cell_setCell g g' cell _ hg
      refine ⟨WF_setCell g g' h.wf cell _ hg (fun c => ⟨rfl, rfl⟩), ?_, ?_, ?_, ?_⟩
      · intro c
        rw [hcell c, hsp, ← h.startFlag c]
        split_ifs <;> rfl
      · intro c
        rw [hcell c, hep]
        by_cases hcc : c = cell
        · rw [if_pos hcc, hcc]
          simp
        · rw [if_neg hcc]
          have := h.endFlag c
          rw [he] at this
          constructor
          · intro h1; exact absurd (this.1 h1) (by simp)
          · intro h1; exact absurd (Option.some.inj h1).symm hcc
      · intro hn c
        rw [hcell c]
        have := h.noWallEarly (Or.inr he) c
        split_ifs <;> exact this
      · intro hn
        rw [hsp] at hn
        exact absurd hn hs
    · have hcell := cell_setCell g g' cell _ hg
      refine ⟨WF_setCell g g' h.wf cell _ hg (fun c => ⟨rfl, rfl⟩), ?_, ?_, ?_, ?_⟩
      · intro c
        rw [hcell c, hsp, ← h.startFlag c]
        split_ifs <;> rfl
      · intro c
        rw [hcell c, hep, ← h.endFlag c]
        split_ifs <;> rfl
      · intro hn c
        rw [hsp, hep] at hn
        rcases hn with hn | hn
        · exact absurd hn hs
        · exact absurd hn he
      · intro hn
        rw [hsp] at hn
        exact absurd hn hs

theorem GameInv.update {g g' : Game} (h : GameInv g) (inp : Input)
    (hu : g.Update inp = .ok g') : GameInv g' := by
  obtain ⟨g1, hc, h1, h2, h3⟩ := Update_click g g' inp hu
  exact (h.click inp hc).congr h1 h2 h3

/-- Every reachable game satisfies the invariant. -/
theorem GameReach.gameInv {g : Game} (h : GameReach g) : GameInv g := by
  induction h with
  | new now => exact NewGame_inv now
  | update g g' inp _ hu ih => exact ih.update inp hu

theorem Result.ok_getD {α : Type} (r : Result α) (d : α) (h : r.isOk = true) :
    r = .ok (r.getD d) := by
  cases r with
  | ok a => rfl
  | fault => simp [Result.isOk] at h
  | outOfFuel => simp [Result.isOk] at h

theorem GameReach.run {g : Game} (h : GameReach g) :
    ∀ (inps : List Input) (g' : Game), g.run inps = .ok g' → GameReach g' := by
  intro inps
  induction inps generalizing g with
  | nil =>
    intro g' hr
    simp only [Game.run] at hr
    rw [← Result.ok.inj hr]
    exact h
  | cons inp inps ih =>
    intro g' hr
    simp only [Game.run] at hr
    cases hu : g.Update inp with
    | ok g1 =>
      rw [hu] at hr
      exact ih (GameReach.update g g1 inp h hu) g' hr
    | fault => rw [hu] at hr; simp at hr
    | outOfFuel => rw [hu] at hr; simp at hr

/-! ## What the search reads of the game -/

theorem heuristic_congr (a a' b b' : Cell) (ha : a.x = a'.x ∧ a.y = a'.y)
    (hb : b.x = b'.x ∧ b.y = b'.y) : heuristic a b = heuristic a' b' := by
  unfold heuristic
  rw [ha.1, ha.2, hb.1, hb.2]

theorem neighborStep_congr (g1 g2 : Game)
    (hx : ∀ c, (g1.cell c).x = (g2.cell c).x ∧ (g1.cell c).y = (g2.cell c).y ∧
      (g1.cell c).wall = (g2.cell c).wall)
    (c : CellRef) (acc : List CellRef) (d : Int × Int) :
    neighborStep g1 c acc d = neighborStep g2 c acc d := by
  have hidx : ∀ i j, g1.index i j = g2.index i j := fun _ _ => rfl
  unfold neighborStep
  rw [(hx c).1, (hx c).2.1]
  simp only [hidx]
  split_ifs with h
  · cases g2.index ((g2.cell c).x + d.1) ((g2.cell c).y + d.2) with
    | none => rfl
    | some r => simp only [(hx r).2.2]
  · rfl

theorem getNeighbors_congr (g1 g2 : Game)
    (hx : ∀ c, (g1.cell c).x = (g2.cell c).x ∧ (g1.cell c).y = (g2.cell c).y ∧
      (g1.cell c).wall = (g2.cell c).wall)
    (c : CellRef) : g1.getNeighbors c = g2.getNeighbors c := by
  unfold Game.getNeighbors
  have : neighborStep g1 c = neighborStep g2 c :=
    funext fun acc => funext fun d => neighborStep_congr g1 g2 hx c acc d
  rw [this]

theorem relax_congr (g1 g2 : Game)
    (hx : ∀ c, (g1.cell c).x = (g2.cell c).x ∧ (g1.cell c).y = (g2.cell c).y ∧
      (g1.cell c).wall = (g2.cell c).wall)
    (e : CellRef) : relax g1 e = relax g2 e := by
  funext current st nb
  unfold relax
  rw [heuristic_congr (g1.cell nb) (g2.cell nb) (g1.cell e) (g2.cell e)
    ⟨(hx nb).1, (hx nb).2.1⟩ ⟨(hx e).1, (hx e).2.1⟩]

theorem aStarLoop_congr (g1 g2 : Game)
    (hx : ∀ c, (g1.cell c).x = (g2.cell c).x ∧ (g1.cell c).y = (g2.cell c).y ∧
      (g1.cell c).wall = (g2.cell c).wall)
    (e : CellRef) : ∀ (fuel : Nat) (st : SearchState),
      aStarLoop g1 e fuel st = aStarLoop g2 e fuel st
  | 0, _ => rfl
  | fuel + 1, st => by
    have ih := aStarLoop_congr g1 g2 hx e fuel
    have hrel := relax_congr g1 g2 hx e
    have hgn := getNeighbors_congr g1 g2 hx
    unfold aStarLoop
    simp only [hrel, hgn, ih]

theorem initState_congr (g1 g2 : Game)
    (hx : ∀ c, (g1.cell c).x = (g2.cell c).x ∧ (g1.cell c).y = (g2.cell c).y ∧
      (g1.cell c).wall = (g2.cell c).wall)
    (s e : CellRef) : initState g1 s e = initState g2 s e := by
  unfold initState
  rw [heuristic_congr (g1.cell s) (g2.cell s) (g1.cell e) (g2.cell e)
    ⟨(hx s).1, (hx s).2.1⟩ ⟨(hx e).1, (hx e).2.1⟩]

/-- The result of `aStar` is a function of the coordinates and wall flags of the
cells and of the two role pointers. -/
theorem aStarFuel_congr (g1 g2 : Game)
    (hx : ∀ c, (g1.cell c).x = (g2.cell c).x ∧ (g1.cell c).y = (g2.cell c).y ∧
      (g1.cell c).wall = (g2.cell c).wall)
    (hs : g1.startPoint = g2.startPoint) (he : g1.endPoint = g2.endPoint) (fuel : Nat) :
    aStarFuel fuel g1 = aStarFuel fuel g2 := by
  unfold aStarFuel
  rw [hs, he]
  cases g2.startPoint with
  | none => rfl
  | some s =>
    cases g2.endPoint with
    | none => rfl
    | some e =>
      simp only
      rw [initState_congr g1 g2 hx s e, aStarLoop_congr g1 g2 hx e]

theorem WF_agree (g1 g2 : Game) (h1 : g1.WF) (h2 : g2.WF) (hw : SameWalls g1 g2) :
    ∀ c, (g1.cell c).x = (g2.cell c).x ∧ (g1.cell c).y = (g2.cell c).y ∧
      (g1.cell c).wall = (g2.cell c).wall := by
  intro c
  refine ⟨?_, ?_, hw c⟩
  · unfold Game.cell
    rw [(h1 c.1 c.2).1, (h2 c.1 c.2).1]
  · unfold Game.cell
    rw [(h1 c.1 c.2).2, (h2 c.1 c.2).2]

/-! ## The history of a run -/

theorem relax_eq (g : Game) (e : CellRef) (current : Node) (st : SearchState) (nb : CellRef) :
    relax g e current st nb =
      if improves st current nb then improved g e current st nb else st := rfl

theorem improves_true {st : SearchState} {current : Node} {nb : CellRef}
    (h : improves st current nb = true) :
    ∀ gw, st.gScore nb = some gw → current.gCost + 1 < gw := by
  intro gw hgw
  unfold improves at h
  rw [hgw] at h
  simpa using h

theorem improves_false {st : SearchState} {current : Node} {nb : CellRef}
    (h : improves st current nb = false) : Within st nb (current.gCost + 1) := by
  unfold improves at h
  cases hg : st.gScore nb with
  | none => rw [hg] at h; simp at h
  | some gw =>
    rw [hg] at h
    simp only [decide_eq_false_iff_not] at h
    exact ⟨gw, hg, by omega⟩

theorem improved_openSet (g : Game) (e : CellRef) (current : Node) (st : SearchState)
    (nb : CellRef) :
    (improved g e current st nb).openSet = heapPush st.openSet (childNode g e current nb) :=
  rfl

theorem improved_gScore (g : Game) (e : CellRef) (current : Node) (st : SearchState)
    (nb c : CellRef) :
    (improved g e current st nb).gScore c =
      if c = nb then some (current.gCost + 1) else st.gScore c := by
  simp only [improved, Function.update_apply]

theorem improved_cameFrom (g : Game) (e : CellRef) (current : Node) (st : SearchState)
    (nb c : CellRef) :
    (improved g e current st nb).cameFrom c =
      if c = nb then some (childNode g e current nb) else st.cameFrom c := by
  simp only [improved, Function.update_apply, childNode]

theorem lastFor_append_singleton (l : List Node) (n : Node) (c : CellRef) :
    lastFor (l ++ [n]) c = if n.cell = c then some n else lastFor l c := by
  unfold lastFor
  rw [List.filter_append]
  by_cases h : n.cell = c
  · simp [h]
  · simp [h]

/-- The node created for a neighbour has at least the `fCost` of its parent:
the heuristic is consistent. -/
theorem child_fCost_ge (g : Game) (hwf : g.WF) (s e : CellRef) (current : Node)
    (hv : ValidNode g s e current) (nb : CellRef) (hstep : g.Step current.cell nb) :
    current.fCost ≤ (childNode g e current nb).fCost := by
  have h1 := hCost_eq g s e current hv
  have h2 := heuristic_step g hwf current.cell nb e hstep.1
  unfold Node.fCost
  rw [h1]
  simp only [childNode, Node.gCost, Node.hCost]
  omega

theorem mem_pushLog (g : Game) (e : CellRef) (current : Node) :
    ∀ (nbs : List CellRef) (st : SearchState) (n : Node), n ∈ pushLog g e current st nbs →
      ∃ nb ∈ nbs, n = childNode g e current nb
  | [], _, n, h => by simp [pushLog] at h
  | nb :: nbs, st, n, h => by
    simp only [pushLog, List.mem_append] at h
    rcases h with h | h
    · split_ifs at h
      · simp only [List.mem_singleton] at h
        exact ⟨nb, List.mem_cons_self _ _, h⟩
      · simp at h
    · obtain ⟨nb', h1, h2⟩ := mem_pushLog g e current nbs _ n h
      exact ⟨nb', List.mem_cons_of_mem _ h1, h2⟩

theorem FoldInv.afterOne {g : Game} (hwf : g.WF) {s e : CellRef} {current : Node}
    {popped : List Node} {done : List CellRef} {st : SearchState} {pushed : List Node}
    (h : FoldInv g s e current popped done st pushed) (nb : CellRef)
    (hstep : g.Step current.cell nb) (hcur : ∀ m ∈ popped, m.fCost ≤ current.fCost) :
    FoldInv g s e current popped (done ++ [nb]) (relax g e current st nb)
      (pushed ++ if improves st current nb then [childNode g e current nb] else []) := by
  have hexp := h.exp.relaxed nb hstep
  rw [relax_eq] at hexp ⊢
  by_cases hi : improves st current nb = true
  · rw [if_pos hi] at hexp ⊢
    rw [if_pos hi]
    have himp := improves_true hi
    have hchild := NodeOK.child himp h.exp.cur hstep
    refine ⟨hexp, ?_, ?_, ?_, ?_, ?_, ?_⟩
    · rw [improved_openSet]
      have h1 : (heapPush st.openSet (childNode g e current nb) ++ popped).Perm
          (childNode g e current nb :: (st.openSet ++ popped)) :=
        (heapPush_perm _ _).append_right popped
      have h2 : (childNode g e current nb :: (st.openSet ++ popped)).Perm
          (childNode g e current nb :: pushed) := h.perm.cons _
      have h3 : (childNode g e current nb :: pushed).Perm
          (pushed ++ [childNode g e current nb]) :=
        (List.perm_append_comm : ([childNode g e current nb] ++ pushed).Perm _)
      exact (h1.trans h2).trans h3
    · intro n hn
      rcases List.mem_append.1 hn with hn | hn
      · exact ⟨(h.valid n hn).1, within_improved himp (h.valid n hn).2⟩
      · simp only [List.mem_singleton] at hn
        subst hn
        exact ⟨hchild.valid, within_improved_self g e current st nb⟩
    · rw [List.pairwise_append]
      refine ⟨h.decreasing, List.pairwise_singleton _ _, ?_⟩
      intro a ha b hb hab
      simp only [List.mem_singleton] at hb
      subst hb
      obtain ⟨gw, hg1, hg2⟩ := (h.valid a ha).2
      have hcell : a.cell = nb := hab
      rw [hcell] at hg1
      have := himp gw hg1
      show current.gCost + 1 < a.gCost
      omega
    · intro c
      rw [improved_gScore, lastFor_append_singleton]
      show _ = Option.map Node.gCost (if nb = c then _ else _)
      by_cases hc : c = nb
      · subst hc
        simp [childNode, Node.gCost]
      · rw [if_neg hc, if_neg (Ne.symm hc)]
        exact h.score c
    · intro c
      rw [improved_cameFrom, lastFor_append_singleton]
      show _ = (if nb = c then _ else _)
      by_cases hc : c = nb
      · subst hc
        simp
      · rw [if_neg hc, if_neg (Ne.symm hc)]
        exact h.came c
    · intro m hm n hn
      rw [improved_openSet, (heapPush_perm _ _).mem_iff, List.mem_cons] at hn
      rcases hn with rfl | hn
      · exact le_trans (hcur m hm) (child_fCost_ge g hwf s e current h.exp.cur.valid nb hstep)
      · exact h.mono m hm n hn
  · have hi' : improves st current nb = false := by simpa using hi
    rw [hi'] at hexp ⊢
    simp only [Bool.false_eq_true, if_false, List.append_nil] at hexp ⊢
    exact ⟨hexp, h.perm, h.valid, h.decreasing, h.score, h.came, h.mono⟩

theorem FoldInv.afterNeighbours {g : Game} (hwf : g.WF) {s e : CellRef} {current : Node}
    {popped : List Node} (hcur : ∀ m ∈ popped, m.fCost ≤ current.fCost) :
    ∀ (nbs done : List CellRef) (st : SearchState) (pushed : List Node),
      FoldInv g s e current popped done st pushed → (∀ w ∈ nbs, g.Step current.cell w) →
      FoldInv g s e current popped (done ++ nbs) (nbs.foldl (relax g e current) st)
        (pushed ++ pushLog g e current st nbs)
  | [], done, st, pushed, h, _ => by
    simpa [pushLog] using h
  | nb :: nbs, done, st, pushed, h, hst => by
    have h1 := h.afterOne hwf nb (hst nb (List.mem_cons_self _ _)) hcur
    have h2 := FoldInv.afterNeighbours hwf hcur nbs (done ++ [nb]) _ _ h1
      (fun w hw => hst w (List.mem_cons_of_mem _ hw))
    simp only [List.foldl_cons, pushLog]
    rw [List.append_assoc] at h2
    rw [List.append_assoc] at h2
    exact h2

/-! ## The invariant of a run -/

/-- What `heap.Pop` returned on a heap: the result and the rest make up the
queue, the rest is a heap again, and the result has the least `fCost`. -/
theorem heapPop_facts (h h' : PriorityQueue) (x : Node) (hh : IsHeap h)
    (hp : heapPop h = some (x, h')) :
    h.Perm (x :: h') ∧ IsHeap h' ∧ ∀ y ∈ h, x.fCost ≤ y.fCost := by
  have hne : h ≠ [] := by
    intro h0
    subst h0
    simp [heapPop, PriorityQueue.Len] at hp
  obtain ⟨h2, hpop, hperm, hheap, hmin⟩ := heapPop_spec h hne hh
  rw [hpop] at hp
  simp only [Option.some.injEq, Prod.mk.injEq] at hp
  rw [← hp.1, ← hp.2]
  exact ⟨hperm, hheap, hmin⟩

/-- An iteration that goes on popped a node that is not for the end cell and
relaxed its neighbours. -/
theorem Run.step_cases (g : Game) (e : CellRef) (r r' : Run) (h : r.step g e = some r') :
    ∃ current rest nbs, heapPop r.st.openSet = some (current, rest) ∧ current.cell ≠ e ∧
      g.getNeighbors current.cell = some nbs ∧
      r' = { st := nbs.foldl (relax g e current) { r.st with openSet := rest }
             pushed := r.pushed ++ pushLog g e current { r.st with openSet := rest } nbs
             popped := r.popped ++ [current] } := by
  unfold Run.step at h
  split_ifs at h with hlen
  cases hp : heapPop r.st.openSet with
  | none => rw [hp] at h; simp at h
  | some cr =>
    obtain ⟨current, rest⟩ := cr
    rw [hp] at h
    simp only at h
    split_ifs at h with hcell
    cases hn : g.getNeighbors current.cell with
    | none => rw [hn] at h; simp at h
    | some nbs =>
      rw [hn] at h
      simp only [Option.some.injEq] at h
      exact ⟨current, rest, nbs, rfl, hcell, hn, h.symm⟩

theorem RunInv.init (g : Game) (s e : CellRef) : RunInv g s e (Run.init g s e) := by
  have hopen : (initState g s e).openSet =
      [Node.mk s 0 (heuristic (g.cell s) (g.cell e)) none] := heapPush_nil _
  have hinv := initState_inv g s e
  have hscore : ∀ v, (initState g s e).gScore v = if v = s then some 0 else none := by
    intro v
    simp only [initState, Function.update_apply]
  have hcame : ∀ v, (initState g s e).cameFrom v =
      if v = s then some (Node.mk s 0 (heuristic (g.cell s) (g.cell e)) none) else none := by
    intro v
    simp only [initState, Function.update_apply]
  have hlast : ∀ c, lastFor [Node.mk s 0 (heuristic (g.cell s) (g.cell e)) none] c =
      if c = s then some (Node.mk s 0 (heuristic (g.cell s) (g.cell e)) none) else none := by
    intro c
    unfold lastFor
    by_cases hc : c = s
    · subst hc
      simp [Node.cell]
    · have : ¬ s = c := fun h => hc h.symm
      simp [Node.cell, hc, this]
  refine ⟨hinv, ?_, ?_, ?_, ?_, ?_, ?_, ?_⟩
  · show ((initState g s e).openSet ++ []).Perm _
    rw [hopen]
    exact List.Perm.refl _
  · intro n hn
    have hn' : n ∈ (initState g s e).openSet := by rw [hopen]; exact hn
    have hok := hinv.nodes n hn'
    refine ⟨hok.valid, ?_⟩
    obtain ⟨t, ht⟩ := chain_eq_cons n
    exact hok.seen n.cell (by rw [ht]; exact List.mem_cons_self _ _)
  · exact List.pairwise_singleton _ _
  · intro c
    show (initState g s e).gScore c = Option.map Node.gCost (lastFor [_] c)
    rw [hscore, hlast]
    split_ifs <;> rfl
  · intro c
    show (initState g s e).cameFrom c = lastFor [_] c
    rw [hcame, hlast]
  · intro m hm
    cases hm
  · exact List.Pairwise.nil

theorem RunInv.step {g : Game} (hwf : g.WF) {s e : CellRef} {r r' : Run}
    (h : RunInv g s e r) (hs : r.step g e = some r') : RunInv g s e r' := by
  obtain ⟨current, rest, nbs, hpop, hcell, hnbs, rfl⟩ := Run.step_cases g e r r' hs
  obtain ⟨hperm, hheap, hmin⟩ := heapPop_facts _ _ _ h.inv.heap hpop
  rw [getNeighbors_eq g hwf] at hnbs
  have hnbs' : expectedNeighbors g current.cell = nbs := Option.some.inj hnbs
  have hcurmem : current ∈ r.st.openSet := hperm.mem_iff.2 (List.mem_cons_self _ _)
  have hcur : ∀ m ∈ r.popped ++ [current], m.fCost ≤ current.fCost := by
    intro m hm
    rcases List.mem_append.1 hm with hm | hm
    · exact h.mono m hm current hcurmem
    · simp only [List.mem_singleton] at hm
      rw [hm]
  have hstart : FoldInv g s e current (r.popped ++ [current]) []
      { r.st with openSet := rest } r.pushed := by
    refine ⟨h.inv.pop current rest hperm hheap, ?_, ?_, h.decreasing, ?_, ?_, ?_⟩
    · have h1 : (rest ++ (r.popped ++ [current])).Perm (current :: rest ++ r.popped) := by
        have : (rest ++ (r.popped ++ [current])).Perm ((rest ++ r.popped) ++ [current]) := by
          rw [List.append_assoc]
        exact this.trans (List.perm_append_comm.trans (List.Perm.refl _))
      have h2 : (current :: rest ++ r.popped).Perm (r.st.openSet ++ r.popped) :=
        (hperm.symm).append_right _
      exact (h1.trans h2).trans h.perm
    · intro n hn
      exact ⟨(h.valid n hn).1, (h.valid n hn).2⟩
    · intro c
      exact h.score c
    · intro c
      exact h.came c
    · intro m hm n hn
      have hn' : n ∈ r.st.openSet := hperm.mem_iff.2 (List.mem_cons_of_mem _ hn)
      rcases List.mem_append.1 hm with hm | hm
      · exact h.mono m hm n hn'
      · simp only [List.mem_singleton] at hm
        rw [hm]
        exact hmin n hn'
  have hend := FoldInv.afterNeighbours hwf hcur nbs [] _ _ hstart (fun w hw => by
    rw [← hnbs'] at hw
    exact (mem_expectedNeighbors g _ w).1 hw)
  refine ⟨hend.exp.finish hcell ?_, hend.perm, hend.valid, hend.decreasing, hend.score,
    hend.came, hend.mono, ?_⟩
  · intro w hw
    rw [← hnbs']
    simpa using (mem_expectedNeighbors g _ w).2 hw
  · show (r.popped ++ [current]).Pairwise _
    rw [List.pairwise_append]
    refine ⟨h.sorted, List.pairwise_singleton _ _, ?_⟩
    intro a ha b hb
    simp only [List.mem_singleton] at hb
    rw [hb]
    exact h.mono a ha current hcurmem

/-- Every run of the main loop on a well-formed grid satisfies the invariant. -/
theorem RunReach.runInv {g : Game} (hwf : g.WF) {s e : CellRef} {r : Run}
    (h : RunReach g s e r) : RunInv g s e r := by
  induction h with
  | init => exact RunInv.init g s e
  | step r r' _ hs ih => exact ih.step hwf hs

theorem RunReach.steps {g : Game} {s e : CellRef} :
    ∀ (k : Nat) (r r' : Run), RunReach g s e r → Run.steps g e k r = some r' →
      RunReach g s e r'
  | 0, r, r', h, hk => by
    simp only [Run.steps, Option.some.injEq] at hk
    rw [← hk]
    exact h
  | k + 1, r, r', h, hk => by
    simp only [Run.steps] at hk
    cases hs : r.step g e with
    | none => rw [hs] at hk; simp at hk
    | some r1 =>
      rw [hs] at hk
      exact RunReach.steps k r1 r' (RunReach.step r r1 h hs) hk

/-! ## Runs and the main loop -/

/-- An iteration that goes on is an iteration of `aStarLoop`. -/
theorem aStarLoop_step (g : Game) (e : CellRef) (r r' : Run) (hs : r.step g e = some r')
    (fuel : Nat) : aStarLoop g e (fuel + 1) r.st = aStarLoop g e fuel r'.st := by
  obtain ⟨current, rest, nbs, hpop, hcell, hnbs, rfl⟩ := Run.step_cases g e r r' hs
  have hlen : r.st.openSet.Len > 0 := by
    unfold Run.step at hs
    by_contra hn
    rw [if_neg hn] at hs
    cases hs
  conv => lhs; unfold aStarLoop
  rw [if_pos hlen, hpop]
  simp only
  rw [if_neg hcell, hnbs]

/-- The iteration that pops a node for the end cell returns its
reconstruction. -/
theorem aStarLoop_found (g : Game) (e : CellRef) (st : SearchState) (current : Node)
    (rest : PriorityQueue) (hpop : heapPop st.openSet = some (current, rest))
    (hcell : current.cell = e) (fuel : Nat) :
    aStarLoop g e (fuel + 1) st = .ok (reconstruct current []) := by
  have hlen : st.openSet.Len > 0 := by
    by_contra hn
    have h0 : st.openSet.Len = 0 := by omega
    simp [heapPop, h0] at hpop
  unfold aStarLoop
  rw [if_pos hlen, hpop]
  simp only
  rw [if_pos hcell]

/-- The iteration that finds the frontier empty returns nil. -/
theorem aStarLoop_empty (g : Game) (e : CellRef) (st : SearchState)
    (hopen : st.openSet = []) (fuel : Nat) : aStarLoop g e (fuel + 1) st = .ok [] := by
  unfold aStarLoop
  rw [hopen]
  simp [PriorityQueue.Len]

theorem Run.step_potential {g : Game} (hwf : g.WF) {s e : CellRef} {r r' : Run}
    (hinv : Inv g s e r.st) (hs : r.step g e = some r') :
    potential r'.st < potential r.st := by
  obtain ⟨current, rest, nbs, hpop, hcell, hnbs, rfl⟩ := Run.step_cases g e r r' hs
  obtain ⟨hperm, hheap, _⟩ := heapPop_facts _ _ _ hinv.heap hpop
  rw [getNeighbors_eq g hwf] at hnbs
  have hnbs' : expectedNeighbors g current.cell = nbs := Option.some.inj hnbs
  have hexp := hinv.pop current rest hperm hheap
  obtain ⟨_, p2⟩ := hexp.afterAll nbs [] _ (fun w hw => by
    rw [← hnbs'] at hw
    exact (mem_expectedNeighbors g _ w).1 hw)
  have p1 := potential_pop r.st current rest hperm
  exact Nat.lt_of_le_of_lt p2 (by omega)

/-- Every run goes on to a run at which the main loop is left, by an empty
frontier or by the pop of a node for the end cell, and that is the result of
`aStarLoop` for every budget above the termination measure. -/
theorem RunReach.exit {g : Game} (hwf : g.WF) {s e : CellRef} :
    ∀ (fuel : Nat) (r : Run), RunReach g s e r → potential r.st < fuel →
      ∃ r', RunReach g s e r' ∧
        ((r'.st.openSet = [] ∧ aStarLoop g e fuel r.st = .ok []) ∨
         (∃ current rest, heapPop r'.st.openSet = some (current, rest) ∧ current.cell = e ∧
            aStarLoop g e fuel r.st = .ok (reconstruct current [])))
  | 0, _, _, hpot => by omega
  | fuel + 1, r, hr, hpot => by
    have hinv := (hr.runInv hwf).inv
    cases hs : r.step g e with
    | some r1 =>
      have hr1 := RunReach.step r r1 hr hs
      have hp := Run.step_potential hwf hinv hs
      obtain ⟨r', hr', hexit⟩ := RunReach.exit hwf fuel r1 hr1 (by omega)
      rw [aStarLoop_step g e r r1 hs fuel]
      exact ⟨r', hr', hexit⟩
    | none =>
      refine ⟨r, hr, ?_⟩
      by_cases hopen : r.st.openSet = []
      · exact Or.inl ⟨hopen, aStarLoop_empty g e r.st hopen fuel⟩
      · right
        obtain ⟨rest, hpop, _⟩ := heapPop_spec r.st.openSet hopen hinv.heap
        have hlen : r.st.openSet.Len > 0 := by
          unfold PriorityQueue.Len
          exact List.length_pos.2 hopen
        have hcell : (r.st.openSet.getD 0 default).cell = e := by
          by_contra hne
          unfold Run.step at hs
          rw [if_pos hlen, hpop] at hs
          simp only at hs
          rw [if_neg hne, getNeighbors_eq g hwf] at hs
          simp at hs
        exact ⟨_, rest, hpop, hcell, aStarLoop_found g e r.st _ rest hpop hcell fuel⟩

/-! ## Supporting facts for the claims on `Update` -/

theorem click_keeps_pointers (g g' : Game) (inp : Input) (h : g.click inp = .ok g') :
    (∀ s, g.startPoint = some s → g'.startPoint = some s) ∧
    (∀ e, g.endPoint = some e → g'.endPoint = some e) := by
  rcases click_cases g g' inp h with rfl | ⟨cell, _, _, hcase⟩
  · exact ⟨fun _ h => h, fun _ h => h⟩
  · rcases hcase with ⟨hs, _, hsp, hep⟩ | ⟨hs, he, _, hsp, hep⟩ | ⟨hs, he, _, hsp, hep⟩
    · refine ⟨fun s h1 => ?_, fun e h1 => ?_⟩
      · rw [hs] at h1; cases h1
      · rw [hep]; exact h1
    · refine ⟨fun s h1 => ?_, fun e h1 => ?_⟩
      · rw [hsp]; exact h1
      · rw [he] at h1; cases h1
    · exact ⟨fun s h1 => by rw [hsp]; exact h1, fun e h1 => by rw [hep]; exact h1⟩

theorem Update_keeps_pointers (g g' : Game) (inp : Input) (h : g.Update inp = .ok g') :
    (∀ s, g.startPoint = some s → g'.startPoint = some s) ∧
    (∀ e, g.endPoint = some e → g'.endPoint = some e) := by
  obtain ⟨g1, hc, _, h2, h3⟩ := Update_click g g' inp h
  obtain ⟨k1, k2⟩ := click_keeps_pointers g g1 inp hc
  exact ⟨fun s hs => by rw [h2]; exact k1 s hs, fun e he => by rw [h3]; exact k2 e he⟩

theorem run_keeps_pointers : ∀ (inps : List Input) (g g' : Game), g.run inps = .ok g' →
    (∀ s, g.startPoint = some s → g'.startPoint = some s) ∧
    (∀ e, g.endPoint = some e → g'.endPoint = some e)
  | [], g, g', h => by
    simp only [Game.run] at h
    rw [← Result.ok.inj h]
    exact ⟨fun _ h => h, fun _ h => h⟩
  | inp :: inps, g, g', h => by
    simp only [Game.run] at h
    cases hu : g.Update inp with
    | ok g1 =>
      rw [hu] at h
      obtain ⟨a1, a2⟩ := Update_keeps_pointers g g1 inp hu
      obtain ⟨b1, b2⟩ := run_keeps_pointers inps g1 g' h
      exact ⟨fun s hs => b1 s (a1 s hs), fun e he => b2 e (a2 e he)⟩
    | fault => rw [hu] at h; simp at h
    | outOfFuel => rw [hu] at h; simp at h

/-- A left click inside the grid once both roles are assigned sets the wall
flag of the cell under the cursor. -/
theorem click_wall (g : Game) (inp : Input) (c : CellRef) (hs : g.startPoint ≠ none)
    (he : g.endPoint ≠ none) (hl : inp.left = true)
    (hi : g.index (Int.tdiv inp.x cellSize) (Int.tdiv inp.y cellSize) = some c) :
    g.click inp = .ok { g with grid := g.setCell c (fun c => { c with wall := true }) } := by
  obtain ⟨e1, e2⟩ := (index_eq_some g _ _ c).1 hi
  have h1 := c.1.isLt
  have h2 := c.2.isLt
  unfold Game.click
  rw [if_pos hl]
  simp only
  rw [if_pos ⟨by omega, by omega⟩, hi]
  simp only
  rw [if_neg hs, if_neg he]

/-- A left click whose column or row is negative, and not beyond the grid on
the other side, indexes the grid out of range. -/
theorem click_left_of_grid (g : Game) (inp : Input) (hl : inp.left = true)
    (hneg : Int.tdiv inp.x cellSize < 0 ∨ Int.tdiv inp.y cellSize < 0)
    (hlt : Int.tdiv inp.x cellSize < gridSize ∧ Int.tdiv inp.y cellSize < gridSize) :
    g.click inp = .fault := by
  unfold Game.click
  rw [if_pos hl]
  simp only
  rw [if_pos hlt, index_eq_none g _ _ (by omega)]

/-- A left click whose column or row is `gridSize` or more changes nothing. -/
theorem click_right_of_grid (g : Game) (inp : Input)
    (h : ¬ (Int.tdiv inp.x cellSize < gridSize ∧ Int.tdiv inp.y cellSize < gridSize)) :
    g.click inp = .ok g := by
  unfold Game.click
  by_cases hl : inp.left = true
  · rw [if_pos hl]
    simp only
    rw [if_neg h]
  · rw [if_neg hl]

theorem twoRoles_reach : GameReach twoRoles :=
  (GameReach.new 0).run _ _ (Result.ok_getD _ _ (by decide))

theorem walledStart_reach : GameReach walledStart :=
  (GameReach.new 0).run _ _ (Result.ok_getD _ _ (by decide))

theorem oneRole_reach : GameReach oneRole :=
  (GameReach.new 0).run _ _ (Result.ok_getD _ _ (by decide))

/-! ## The claims on `Update` -/

/-- C11, counterexample.  After clicks on `(0,0)`, `(1,0)` and `(0,0)` again the
cell `(0,0)` is both the start and a wall, and that third click changed the
grid. -/
theorem role_wall_exclusion_fails : ¬ RoleWallExclusive ∧ ¬ WallClickOnRoleIsNoOp := by
  constructor
  · intro h
    exact h walledStart walledStart_reach (0, 0) (by decide)
  · intro h
    have hgrid := h twoRoles twoRoles_reach (leftClick 0 0) (0, 0)
      ((twoRoles.click (leftClick 0 0)).getD twoRoles) (by decide) (by decide) rfl
      (by decide) (by decide) (Result.ok_getD _ _ (by decide))
    have h1 : ((((twoRoles.click (leftClick 0 0)).getD twoRoles).grid 0 0).wall) = true := by
      decide
    rw [hgrid] at h1
    revert h1
    decide

/-- C11, as amended.  In every reachable game no cell is a wall before both
roles are assigned; no call of `Update` clears a start or end flag; and a left
click inside the grid once both roles are assigned sets the wall flag of the cell
under the cursor and keeps its role flags, so that a cell may be a wall and hold a
role. -/
theorem wall_click_keeps_roles (g : Game) (hr : GameReach g) :
    ((g.startPoint = none ∨ g.endPoint = none) → ∀ c : CellRef, (g.cell c).wall = false) ∧
    (∀ (inp : Input) (g' : Game), g.Update inp = .ok g' → ∀ c : CellRef,
      ((g.cell c).start = true → (g'.cell c).start = true) ∧
      ((g.cell c).isEnd = true → (g'.cell c).isEnd = true)) ∧
    (∀ (inp : Input) (c : CellRef) (g1 : Game), g.startPoint ≠ none → g.endPoint ≠ none →
      inp.left = true →
      g.index (Int.tdiv inp.x cellSize) (Int.tdiv inp.y cellSize) = some c →
      g.click inp = .ok g1 →
      (g1.cell c).wall = true ∧ (g1.cell c).start = (g.cell c).start ∧
        (g1.cell c).isEnd = (g.cell c).isEnd) := by
  have hinv := hr.gameInv
  refine ⟨hinv.noWallEarly, ?_, ?_⟩
  · intro inp g' hu c
    have hinv' := hinv.update inp hu
    obtain ⟨k1, k2⟩ := Update_keeps_pointers g g' inp hu
    exact ⟨fun h => (hinv'.startFlag c).2 (k1 c ((hinv.startFlag c).1 h)),
      fun h => (hinv'.endFlag c).2 (k2 c ((hinv.endFlag c).1 h))⟩
  · intro inp c g1 hs he hl hi hc
    rw [click_wall g inp c hs he hl hi] at hc
    have hg : g1.grid = g.setCell c (fun c => { c with wall := true }) := by
      rw [← Result.ok.inj hc]
    have := cell_setCell g g1 c _ hg c
    rw [if_pos rfl] at this
    rw [this]
    exact ⟨rfl, rfl, rfl⟩

/-- C12, the failing input.  With the left button pressed at cursor `(-40, 0)`
the computed column is `-1`, the test `gridX < gridSize` lets it pass, and
`g.grid[-1][0]` is indexed: `Update` panics instead of rejecting the click. -/
theorem Update_left_of_grid_faults :
    Int.tdiv (-40) cellSize = -1 ∧ (NewGame 0).Update (leftClick (-40) 0) = .fault :=
  ⟨by decide, by rfl⟩

/-- C13, counterexample.  A click on `(0,0)` followed by a call with both
buttons pressed on `(0,0)` reaches the call of `aStar` with the start and the end
on the same cell. -/
theorem search_on_same_cell : ¬ SearchOnDistinctCells := by
  intro h
  exact h oneRole oneRole_reach (bothClick 0 0) ((oneRole.click (bothClick 0 0)).getD oneRole)
    (Result.ok_getD _ _ (by decide)) rfl (0, 0) (0, 0) (by decide) (by decide) rfl

/-- C13, as amended.  Whenever a call of `Update` on a reachable game gets to
the call of `aStar`, `startPoint` and `endPoint` are set to the cells that carry
the start flag and the end flag, and `aStar` returns a path without a fault that
is stored in `path`; the two cells may be the same, and then the path is that
single cell. -/
theorem search_roles_set (g : Game) (hr : GameReach g) (inp : Input) (g1 : Game)
    (hc : g.click inp = .ok g1) (hright : inp.right = true) (s e : CellRef)
    (hs : g1.startPoint = some s) (he : g1.endPoint = some e) :
    (g1.cell s).start = true ∧ (g1.cell e).isEnd = true ∧
    (∃ p, aStar g1 = .ok p ∧
      g1.search inp = .ok { g1 with path := p, currentStep := 0, lastUpdate := inp.nowSearch }) ∧
    (s = e → aStar g1 = .ok [s]) := by
  have hinv := hr.gameInv.click inp hc
  refine ⟨(hinv.startFlag s).2 hs, (hinv.endFlag e).2 he, ?_, ?_⟩
  · obtain ⟨p, hp, _⟩ := aStar_total g1 hinv.wf s e hs he
    refine ⟨p, hp, ?_⟩
    unfold Game.search
    rw [if_pos ⟨hright, by rw [hs]; simp, by rw [he]; simp⟩, hp]
  · intro hse
    subst hse
    unfold aStar
    have key : ∀ fuel, aStarFuel (fuel + 1) g1 = .ok [s] := by
      intro fuel
      unfold aStarFuel
      rw [hs, he]
      simp only
      rw [aStarLoop_found g1 s (initState g1 s s)
        (Node.mk s 0 (heuristic (g1.cell s) (g1.cell s)) none) []
        (by rw [show (initState g1 s s).openSet = _ from heapPush_nil _, heapPop_singleton])
        rfl fuel]
      rfl
    exact key (fuelBound - 1)

/-- C14 (unique roles).  In every reachable game a cell has the start flag iff
it is `startPoint` and the end flag iff it is `endPoint`, so at most one cell has
each flag; and once set, `startPoint` and `endPoint` stay the same through every
further sequence of calls of `Update`. -/
theorem roles_unique (g : Game) (hr : GameReach g) :
    (∀ c : CellRef, (g.cell c).start = true ↔ g.startPoint = some c) ∧
    (∀ c : CellRef, (g.cell c).isEnd = true ↔ g.endPoint = some c) ∧
    (∀ c c' : CellRef, (g.cell c).start = true → (g.cell c').start = true → c = c') ∧
    (∀ c c' : CellRef, (g.cell c).isEnd = true → (g.cell c').isEnd = true → c = c') ∧
    (∀ (inps : List Input) (g' : Game), g.run inps = .ok g' →
      (∀ s, g.startPoint = some s → g'.startPoint = some s) ∧
      (∀ e, g.endPoint = some e → g'.endPoint = some e)) := by
  have hinv := hr.gameInv
  refine ⟨hinv.startFlag, hinv.endFlag, ?_, ?_, fun inps g' h => run_keeps_pointers inps g g' h⟩
  · intro c c' h1 h2
    have e1 := (hinv.startFlag c).1 h1
    have e2 := (hinv.startFlag c').1 h2
    rw [e1] at e2
    exact Option.some.inj e2
  · intro c c' h1 h2
    have e1 := (hinv.endFlag c).1 h1
    have e2 := (hinv.endFlag c').1 h2
    rw [e1] at e2
    exact Option.some.inj e2

/-- C15 (determinism, read-only grid).  The search part of `Update` leaves the
grid and the two role pointers as they are, and on two well-formed games with the
same wall flags and the same start and end cells `aStar` returns the same result,
with the same coordinate sequence, for every fuel budget, whatever the role flags,
the stored path, `currentStep` and `lastUpdate` of the two games are. -/
theorem aStar_reads_walls_only (g1 g2 : Game) (h1 : g1.WF) (h2 : g2.WF)
    (hw : SameWalls g1 g2) (hs : g1.startPoint = g2.startPoint)
    (he : g1.endPoint = g2.endPoint) :
    aStar g1 = aStar g2 ∧
    (∀ p1 p2, aStar g1 = .ok p1 → aStar g2 = .ok p2 → g1.coords p1 = g2.coords p2) ∧
    (∀ fuel, aStarFuel fuel g1 = aStarFuel fuel g2) ∧
    (∀ (inp : Input) (g' : Game), g1.search inp = .ok g' →
      g'.grid = g1.grid ∧ g'.startPoint = g1.startPoint ∧ g'.endPoint = g1.endPoint) := by
  have hx := WF_agree g1 g2 h1 h2 hw
  have heq : ∀ fuel, aStarFuel fuel g1 = aStarFuel fuel g2 :=
    fun fuel => aStarFuel_congr g1 g2 hx hs he fuel
  refine ⟨heq fuelBound, ?_, heq, fun inp g' h => search_frame g1 g' inp h⟩
  intro p1 p2 hp1 hp2
  have : aStar g1 = aStar g2 := heq fuelBound
  rw [hp1, hp2] at this
  rw [Result.ok.inj this]
  unfold Game.coords
  refine List.map_congr_left ?_
  intro c _
  rw [(hx c).1, (hx c).2.1]

/-! ## Supporting facts for the claims on runs -/

/-- Relaxing neighbours whose recorded `gScore` is not above `current.gCost + 1`
changes nothing and pushes nothing. -/
theorem fold_noop (g : Game) (e : CellRef) (current : Node) :
    ∀ (nbs : List CellRef) (st : SearchState),
      (∀ w ∈ nbs, Within st w (current.gCost + 1)) →
      nbs.foldl (relax g e current) st = st ∧ pushLog g e current st nbs = []
  | [], _, _ => ⟨rfl, rfl⟩
  | nb :: nbs, st, h => by
    have hno : improves st current nb = false := by
      obtain ⟨gw, h1, h2⟩ := h nb (List.mem_cons_self _ _)
      unfold improves
      rw [h1]
      simp only [decide_eq_false_iff_not]
      omega
    have hrel : relax g e current st nb = st := by
      rw [relax_eq, hno]
      rfl
    obtain ⟨ih1, ih2⟩ := fold_noop g e current nbs st
      (fun w hw => h w (List.mem_cons_of_mem _ hw))
    simp only [List.foldl_cons, pushLog, hrel, hno]
    exact ⟨ih1, by simpa using ih2⟩

theorem depth_eq_gCost (g : Game) (s e : CellRef) : ∀ (n : Node), ValidNode g s e n →
    n.gCost = n.depth
  | .mk _ _ _ none, hv => hv.2.1
  | .mk _ gc _ (some p), hv => by
    obtain ⟨_, h1, _, hp⟩ := hv
    have := depth_eq_gCost g s e p hp
    simp only [Node.gCost, Node.depth]
    rw [h1, this]

theorem root_eq_start (g : Game) (s e : CellRef) : ∀ (n : Node), ValidNode g s e n →
    n.root = Node.mk s 0 (heuristic (g.cell s) (g.cell e)) none
  | .mk c gc hc none, hv => by
    obtain ⟨h1, h2, h3⟩ := hv
    simp only [Node.root]
    rw [h3, h2, h1]
  | .mk _ _ _ (some p), hv => by
    simp only [Node.root]
    exact root_eq_start g s e p hv.2.2.2

theorem parent_gCost (g : Game) (s e : CellRef) : ∀ (n : Node), ValidNode g s e n →
    (∀ p, n.parent = some p → n.gCost = p.gCost + 1) ∧ (n.parent = none → n.gCost = 0)
  | .mk _ _ _ none, hv => by
    refine ⟨fun p hp => ?_, fun _ => hv.2.1⟩
    simp [Node.parent] at hp
  | .mk _ _ _ (some q), hv => by
    refine ⟨fun p hp => ?_, fun hp => ?_⟩
    · simp only [Node.parent, Option.some.injEq] at hp
      subst hp
      exact hv.2.1
    · simp [Node.parent] at hp

/-- Same cell and valid: the `fCost` of two nodes compares as their `gCost`. -/
theorem fCost_lt_of_gCost_lt (g : Game) (s e : CellRef) (a b : Node)
    (ha : ValidNode g s e a) (hb : ValidNode g s e b) (hcell : a.cell = b.cell)
    (hlt : b.gCost < a.gCost) : b.fCost < a.fCost := by
  unfold Node.fCost
  rw [hCost_eq g s e a ha, hCost_eq g s e b hb, hcell]
  omega

/-! ## The claims on runs of the main loop -/

/-- C16 (stale pops are ignored).  In every run of the main loop on a
well-formed grid, when `heap.Pop` returns a node whose `gCost` is above the
`gScore` recorded for its cell, that node is not a node for the end cell, so no
path is reconstructed from it, and the relaxation of its neighbours pushes no
node and leaves `gScore` and `cameFrom` as they are. -/
theorem stale_pop_ignored (g : Game) (hwf : g.WF) (s e : CellRef) (r : Run)
    (hr : RunReach g s e r) (current : Node) (rest : PriorityQueue)
    (hpop : heapPop r.st.openSet = some (current, rest)) (gv : Nat)
    (hg : r.st.gScore current.cell = some gv) (hstale : gv < current.gCost) :
    current.cell ≠ e ∧
    ∃ nbs, g.getNeighbors current.cell = some nbs ∧
      (nbs.foldl (relax g e current) { r.st with openSet := rest }).openSet = rest ∧
      (nbs.foldl (relax g e current) { r.st with openSet := rest }).gScore = r.st.gScore ∧
      (nbs.foldl (relax g e current) { r.st with openSet := rest }).cameFrom = r.st.cameFrom ∧
      pushLog g e current { r.st with openSet := rest } nbs = [] := by
  have hinv := (hr.runInv hwf).inv
  obtain ⟨hperm, _, hmin⟩ := heapPop_facts _ _ _ hinv.heap hpop
  have hcur := hinv.nodes current (hperm.mem_iff.2 (List.mem_cons_self _ _))
  rcases hinv.closed current.cell gv hg with ⟨n, hn, h1, h2⟩ | ⟨hne, hclosed⟩
  · have hlt := fCost_lt_of_gCost_lt g s e current n hcur.valid (hinv.nodes n hn).valid
      h1.symm (by omega)
    have := hmin n hn
    omega
  · refine ⟨hne, expectedNeighbors g current.cell, getNeighbors_eq g hwf _, ?_⟩
    obtain ⟨k1, k2⟩ := fold_noop g e current (expectedNeighbors g current.cell)
      { r.st with openSet := rest } (fun w hw => by
        obtain ⟨gw, a1, a2⟩ := hclosed w ((mem_expectedNeighbors g _ w).1 hw)
        exact ⟨gw, a1, by omega⟩)
    rw [k1]
    exact ⟨rfl, rfl, rfl, k2⟩

/-- C17 (stale entries never beat fresher ones).  In every run of the main loop
on a well-formed grid the nodes pushed for one cell have strictly falling `gCost`
and `fCost` in the order of the pushes; when two of them are on the frontier,
`heap.Pop` does not return the one pushed earlier, which stays on the frontier;
and among the expanded nodes of one cell those of smaller `gCost`, pushed later,
come first. -/
theorem fresher_pops_first (g : Game) (hwf : g.WF) (s e : CellRef) (r : Run)
    (hr : RunReach g s e r) :
    (r.pushed.Pairwise fun a b => a.cell = b.cell → b.gCost < a.gCost ∧ b.fCost < a.fCost) ∧
    (∀ a b : Node, List.Sublist [a, b] r.pushed → a.cell = b.cell → a ∈ r.st.openSet →
      b ∈ r.st.openSet → ∀ current rest, heapPop r.st.openSet = some (current, rest) →
      current ≠ a ∧ a ∈ rest) ∧
    (r.popped.Pairwise fun x y => x.cell = y.cell → x.gCost < y.gCost) := by
  have h := hr.runInv hwf
  have hfirst : r.pushed.Pairwise fun a b =>
      a.cell = b.cell → b.gCost < a.gCost ∧ b.fCost < a.fCost := by
    have hand : r.pushed.Pairwise fun a b =>
        (ValidNode g s e a ∧ ValidNode g s e b) ∧ (a.cell = b.cell → b.gCost < a.gCost) :=
      List.Pairwise.and (List.pairwise_of_forall_mem_list
        (fun a ha b hb => ⟨(h.valid a ha).1, (h.valid b hb).1⟩)) h.decreasing
    exact hand.imp (fun {a b} hab hcell =>
      ⟨hab.2 hcell, fCost_lt_of_gCost_lt g s e a b hab.1.1 hab.1.2 hcell (hab.2 hcell)⟩)
  refine ⟨hfirst, ?_, ?_⟩
  · intro a b hsub hcell ha hb current rest hpop
    obtain ⟨hperm, _, hmin⟩ := heapPop_facts _ _ _ h.inv.heap hpop
    have hpair := hfirst.sublist hsub
    have hlt : b.fCost < a.fCost := by
      rw [List.pairwise_pair] at hpair
      exact (hpair hcell).2
    have hne : current ≠ a := by
      intro hca
      have := hmin b hb
      rw [hca] at this
      omega
    refine ⟨hne, ?_⟩
    rcases List.mem_cons.1 (hperm.mem_iff.1 ha) with h1 | h1
    · exact absurd h1.symm hne
    · exact h1
  · have hdistinct : r.pushed.Pairwise fun a b => a.cell = b.cell → a.gCost ≠ b.gCost :=
      h.decreasing.imp (fun {a b} hab hcell => by have := hab hcell; omega)
    have hsymm : Symmetric fun a b : Node => a.cell = b.cell → a.gCost ≠ b.gCost :=
      fun a b hab hcell => (hab hcell.symm).symm
    have hall : (r.st.openSet ++ r.popped).Pairwise
        fun a b => a.cell = b.cell → a.gCost ≠ b.gCost :=
      (h.perm.pairwise_iff (fun {a b} hab => hsymm hab)).2 hdistinct
    have hpop := (List.pairwise_append.1 hall).2.1
    have hvalid : ∀ x ∈ r.popped, ValidNode g s e x := fun x hx =>
      (h.valid x (h.perm.mem_iff.1 (List.mem_append_right _ hx))).1
    have hand := List.Pairwise.and (List.Pairwise.and hpop h.sorted)
      (List.pairwise_of_forall_mem_list
        (fun a ha b hb => (⟨hvalid a ha, hvalid b hb⟩ : ValidNode g s e a ∧ ValidNode g s e b)))
    refine hand.imp (fun {x y} hxy hcell => ?_)
    obtain ⟨⟨hne, hle⟩, hvx, hvy⟩ := hxy
    have hne' := hne hcell
    unfold Node.fCost at hle
    rw [hCost_eq g s e x hvx, hCost_eq g s e y hvy, hcell] at hle
    omega

/-- C18 (termination).  On every well-formed grid the main loop of `aStar`
reaches a run at which it is left, by an empty frontier with the nil result or by
the pop of a node for the end cell with its reconstruction as result; no fuel
budget from `fuelBound` on changes that result; every iteration that goes on
lowers the termination measure; and a relaxation either changes nothing or pushes
one node for a cell that had no `gScore` or a strictly higher one, and records
the new `gScore`. -/
theorem aStar_terminates (g : Game) (hwf : g.WF) (s e : CellRef)
    (hs : g.startPoint = some s) (he : g.endPoint = some e) :
    (∃ r, RunReach g s e r ∧
      ((r.st.openSet = [] ∧ aStar g = .ok []) ∨
       (∃ current rest, heapPop r.st.openSet = some (current, rest) ∧ current.cell = e ∧
          aStar g = .ok (reconstruct current [])))) ∧
    (∀ fuel, fuelBound ≤ fuel → aStarFuel fuel g = aStar g) ∧
    (∀ r r', RunReach g s e r → r.step g e = some r' → potential r'.st < potential r.st) ∧
    (∀ (current : Node) (st : SearchState) (nb : CellRef),
      relax g e current st nb = st ∨
      ((st.gScore nb = none ∨ ∃ old, st.gScore nb = some old ∧ current.gCost + 1 < old) ∧
        (relax g e current st nb).gScore nb = some (current.gCost + 1) ∧
        (relax g e current st nb).openSet.Perm (childNode g e current nb :: st.openSet))) := by
  refine ⟨?_, ?_, ?_, ?_⟩
  · have hpot := potential_initState g s e
    obtain ⟨r, hr, hexit⟩ := RunReach.exit hwf fuelBound (Run.init g s e) RunReach.init hpot
    have haStar : aStar g = aStarLoop g e fuelBound (initState g s e) := by
      unfold aStar aStarFuel
      rw [hs, he]
    rw [haStar]
    exact ⟨r, hr, hexit⟩
  · intro fuel hfuel
    obtain ⟨p, hp, hall⟩ := aStar_total g hwf s e hs he
    rw [hp, hall fuel hfuel]
  · intro r r' hr hstep
    exact Run.step_potential hwf (hr.runInv hwf).inv hstep
  · intro current st nb
    rw [relax_eq]
    by_cases hi : improves st current nb = true
    · right
      rw [if_pos hi]
      refine ⟨?_, by rw [improved_gScore, if_pos rfl], by
        rw [improved_openSet]; exact heapPush_perm _ _⟩
      cases hg : st.gScore nb with
      | none => exact Or.inl rfl
      | some old => exact Or.inr ⟨old, rfl, improves_true hi old hg⟩
    · left
      rw [if_neg hi]

/-- C19 (monotone expansion).  In every run of the main loop on a well-formed
grid the `fCost` values of the expanded nodes are non-decreasing in the order of
the pops, the node that `heap.Pop` returns next has an `fCost` not below any of
them, and every node pushed while its neighbours are relaxed has an `fCost` not
below its own. -/
theorem expansion_monotone (g : Game) (hwf : g.WF) (s e : CellRef) (r : Run)
    (hr : RunReach g s e r) :
    (r.popped.Pairwise fun a b => a.fCost ≤ b.fCost) ∧
    (∀ current rest, heapPop r.st.openSet = some (current, rest) →
      (∀ m ∈ r.popped, m.fCost ≤ current.fCost) ∧
      ∀ nbs, g.getNeighbors current.cell = some nbs →
        ∀ n ∈ pushLog g e current { r.st with openSet := rest } nbs,
          current.fCost ≤ n.fCost) := by
  have h := hr.runInv hwf
  refine ⟨h.sorted, ?_⟩
  intro current rest hpop
  obtain ⟨hperm, _, _⟩ := heapPop_facts _ _ _ h.inv.heap hpop
  have hmem : current ∈ r.st.openSet := hperm.mem_iff.2 (List.mem_cons_self _ _)
  refine ⟨fun m hm => h.mono m hm current hmem, ?_⟩
  intro nbs hnbs n hn
  rw [getNeighbors_eq g hwf] at hnbs
  obtain ⟨nb, hnb, rfl⟩ := mem_pushLog g e current nbs _ n hn
  rw [← Option.some.inj hnbs] at hnb
  exact child_fCost_ge g hwf s e current (h.inv.nodes current hmem).valid nb
    ((mem_expectedNeighbors g _ nb).1 hnb)

/-- C20 (cost bookkeeping).  In every run of the main loop on a well-formed
grid every node pushed so far has a `gCost` equal to the number of parent links
back to the start node, which has `gCost` `0` and no parent, and a `gCost` one
above that of its parent; at the loop head `gScore` of a cell is the `gCost` of
the node pushed last for it, and `cameFrom` is that node; and the path
reconstructed from a popped node for the end cell has `gCost + 1` cells. -/
theorem cost_bookkeeping (g : Game) (hwf : g.WF) (s e : CellRef) (r : Run)
    (hr : RunReach g s e r) :
    (∀ n ∈ r.pushed, n.gCost = n.depth ∧
      n.root = Node.mk s 0 (heuristic (g.cell s) (g.cell e)) none ∧
      (∀ p, n.parent = some p → n.gCost = p.gCost + 1) ∧ (n.parent = none → n.gCost = 0)) ∧
    (∀ c, r.st.gScore c = (lastFor r.pushed c).map Node.gCost) ∧
    (∀ c, r.st.cameFrom c = lastFor r.pushed c) ∧
    (∀ current rest, heapPop r.st.openSet = some (current, rest) →
      current ∈ r.pushed ∧ (reconstruct current []).length = current.gCost + 1) := by
  have h := hr.runInv hwf
  refine ⟨?_, h.score, h.came, ?_⟩
  · intro n hn
    have hv := (h.valid n hn).1
    exact ⟨depth_eq_gCost g s e n hv, root_eq_start g s e n hv, parent_gCost g s e n hv⟩
  · intro current rest hpop
    obtain ⟨hperm, _, _⟩ := heapPop_facts _ _ _ h.inv.heap hpop
    have hmem : current ∈ r.st.openSet := hperm.mem_iff.2 (List.mem_cons_self _ _)
    have hpushed : current ∈ r.pushed := h.perm.mem_iff.1 (List.mem_append_left _ hmem)
    exact ⟨hpushed, (reconstruct_walk g s e current (h.valid current hpushed).1).2⟩

/-! ## The later claims at concrete inputs -/

theorem eq_some_getD {α : Type} (o : Option α) (d : α) (h : o.isSome = true) :
    o = some (o.getD d) := by
  cases o with
  | none => simp at h
  | some a => rfl

/-- Eleven iterations of the main loop on `staleGame` go on. -/
theorem staleRun_reach : RunReach staleGame (1, 0) (0, 4) staleRun :=
  RunReach.steps 11 _ _ RunReach.init (eq_some_getD _ _ (by decide!))

/-- The twelfth pop on `staleGame` returns a node. -/
theorem stalePop_eq : heapPop staleRun.st.openSet = some (stalePop.1, stalePop.2) := by
  have h : heapPop staleRun.st.openSet = some stalePop := by
    unfold stalePop
    exact eq_some_getD _ _ (by decide!)
  exact h.trans (congrArg some (@Prod.mk.eta _ _ stalePop).symm)

/-- C11 as amended, at the game with start `(0,0)` and end `(1,0)`. -/
theorem wall_click_keeps_roles_witness :
    GameReach twoRoles ∧
    (((twoRoles.startPoint = none ∨ twoRoles.endPoint = none) →
        ∀ c : CellRef, (twoRoles.cell c).wall = false) ∧
    (∀ (inp : Input) (g' : Game), twoRoles.Update inp = .ok g' → ∀ c : CellRef,
      ((twoRoles.cell c).start = true → (g'.cell c).start = true) ∧
      ((twoRoles.cell c).isEnd = true → (g'.cell c).isEnd = true)) ∧
    (∀ (inp : Input) (c : CellRef) (g1 : Game), twoRoles.startPoint ≠ none →
      twoRoles.endPoint ≠ none → inp.left = true →
      twoRoles.index (Int.tdiv inp.x cellSize) (Int.tdiv inp.y cellSize) = some c →
      twoRoles.click inp = .ok g1 →
      (g1.cell c).wall = true ∧ (g1.cell c).start = (twoRoles.cell c).start ∧
        (g1.cell c).isEnd = (twoRoles.cell c).isEnd)) :=
  ⟨twoRoles_reach, wall_click_keeps_roles twoRoles twoRoles_reach⟩

/-- C13 as amended, at the call with both buttons pressed on the start cell. -/
theorem search_roles_set_witness :
    GameReach oneRole ∧
    ((oneRole.click (bothClick 0 0)).getD oneRole).startPoint = some (0, 0) ∧
    ((oneRole.click (bothClick 0 0)).getD oneRole).endPoint = some (0, 0) ∧
    ((((oneRole.click (bothClick 0 0)).getD oneRole).cell (0, 0)).start = true ∧
    (((oneRole.click (bothClick 0 0)).getD oneRole).cell (0, 0)).isEnd = true ∧
    (∃ p, aStar ((oneRole.click (bothClick 0 0)).getD oneRole) = .ok p ∧
      ((oneRole.click (bothClick 0 0)).getD oneRole).search (bothClick 0 0) =
        .ok { (oneRole.click (bothClick 0 0)).getD oneRole with
          path := p, currentStep := 0, lastUpdate := (bothClick 0 0).nowSearch }) ∧
    (((0 : Fin gridSize), (0 : Fin gridSize)) = (0, 0) →
      aStar ((oneRole.click (bothClick 0 0)).getD oneRole) = .ok [(0, 0)])) :=
  ⟨oneRole_reach, by decide, by decide,
    search_roles_set oneRole oneRole_reach (bothClick 0 0) _
      (Result.ok_getD _ _ (by decide)) rfl (0, 0) (0, 0) (by decide) (by decide)⟩

/-- C14 at the game with start `(0,0)` and end `(1,0)`. -/
theorem roles_unique_witness :
    GameReach twoRoles ∧
    ((∀ c : CellRef, (twoRoles.cell c).start = true ↔ twoRoles.startPoint = some c) ∧
    (∀ c : CellRef, (twoRoles.cell c).isEnd = true ↔ twoRoles.endPoint = some c) ∧
    (∀ c c' : CellRef, (twoRoles.cell c).start = true → (twoRoles.cell c').start = true →
      c = c') ∧
    (∀ c c' : CellRef, (twoRoles.cell c).isEnd = true → (twoRoles.cell c').isEnd = true →
      c = c') ∧
    (∀ (inps : List Input) (g' : Game), twoRoles.run inps = .ok g' →
      (∀ s, twoRoles.startPoint = some s → g'.startPoint = some s) ∧
      (∀ e, twoRoles.endPoint = some e → g'.endPoint = some e))) :=
  ⟨twoRoles_reach, roles_unique twoRoles twoRoles_reach⟩

/-- C15 at `detourGame` and a game with the same walls but other flags, path,
animation step and time stamp. -/
theorem aStar_reads_walls_only_witness :
    detourGame.WF ∧ detourGameAlt.WF ∧ SameWalls detourGame detourGameAlt ∧
    detourGameAlt.path ≠ detourGame.path ∧
    (detourGameAlt.cell (0, 0)).start ≠ (detourGame.cell (0, 0)).start ∧
    (aStar detourGame = aStar detourGameAlt ∧
    (∀ p1 p2, aStar detourGame = .ok p1 → aStar detourGameAlt = .ok p2 →
      detourGame.coords p1 = detourGameAlt.coords p2) ∧
    (∀ fuel, aStarFuel fuel detourGame = aStarFuel fuel detourGameAlt) ∧
    (∀ (inp : Input) (g' : Game), detourGame.search inp = .ok g' →
      g'.grid = detourGame.grid ∧ g'.startPoint = detourGame.startPoint ∧
        g'.endPoint = detourGame.endPoint)) :=
  ⟨by decide, by decide, fun _ => rfl, by decide, by decide,
    aStar_reads_walls_only detourGame detourGameAlt (by decide) (by decide) (fun _ => rfl)
      rfl rfl⟩

/-- C16 at the twelfth pop on `staleGame`: the node for `(2,2)` with `gCost` 5
is popped while `gScore` of `(2,2)` is 3. -/
theorem stale_pop_ignored_witness :
    staleGame.WF ∧ RunReach staleGame (1, 0) (0, 4) staleRun ∧
    heapPop staleRun.st.openSet = some (stalePop.1, stalePop.2) ∧
    stalePop.1.cell = (2, 2) ∧ stalePop.1.gCost = 5 ∧
    staleRun.st.gScore stalePop.1.cell = some 3 ∧
    (stalePop.1.cell ≠ (0, 4) ∧
    ∃ nbs, staleGame.getNeighbors stalePop.1.cell = some nbs ∧
      (nbs.foldl (relax staleGame (0, 4) stalePop.1)
        { staleRun.st with openSet := stalePop.2 }).openSet = stalePop.2 ∧
      (nbs.foldl (relax staleGame (0, 4) stalePop.1)
        { staleRun.st with openSet := stalePop.2 }).gScore = staleRun.st.gScore ∧
      (nbs.foldl (relax staleGame (0, 4) stalePop.1)
        { staleRun.st with openSet := stalePop.2 }).cameFrom = staleRun.st.cameFrom ∧
      pushLog staleGame (0, 4) stalePop.1 { staleRun.st with openSet := stalePop.2 } nbs
        = []) :=
  ⟨by decide, staleRun_reach, stalePop_eq, by decide!, by decide!, by decide!,
    stale_pop_ignored staleGame (by decide) (1, 0) (0, 4) staleRun staleRun_reach
      stalePop.1 stalePop.2 stalePop_eq 3 (by decide!) (by decide!)⟩

/-- C17 at the run on `staleGame` after eleven iterations. -/
theorem fresher_pops_first_witness :
    staleGame.WF ∧ RunReach staleGame (1, 0) (0, 4) staleRun ∧
    ((staleRun.pushed.Pairwise fun a b =>
      a.cell = b.cell → b.gCost < a.gCost ∧ b.fCost < a.fCost) ∧
    (∀ a b : Node, List.Sublist [a, b] staleRun.pushed → a.cell = b.cell →
      a ∈ staleRun.st.openSet → b ∈ staleRun.st.openSet →
      ∀ current rest, heapPop staleRun.st.openSet = some (current, rest) →
      current ≠ a ∧ a ∈ rest) ∧
    (staleRun.popped.Pairwise fun x y => x.cell = y.cell → x.gCost < y.gCost)) :=
  ⟨by decide, staleRun_reach,
    fresher_pops_first staleGame (by decide) (1, 0) (0, 4) staleRun staleRun_reach⟩

/-- C18 at `detourGame`. -/
theorem aStar_terminates_witness :
    detourGame.WF ∧
    ((∃ r, RunReach detourGame (0, 0) (0, 2) r ∧
      ((r.st.openSet = [] ∧ aStar detourGame = .ok []) ∨
       (∃ current rest, heapPop r.st.openSet = some (current, rest) ∧
          current.cell = (0, 2) ∧ aStar detourGame = .ok (reconstruct current [])))) ∧
    (∀ fuel, fuelBound ≤ fuel → aStarFuel fuel detourGame = aStar detourGame) ∧
    (∀ r r', RunReach detourGame (0, 0) (0, 2) r → r.step detourGame (0, 2) = some r' →
      potential r'.st < potential r.st) ∧
    (∀ (current : Node) (st : SearchState) (nb : CellRef),
      relax detourGame (0, 2) current st nb = st ∨
      ((st.gScore nb = none ∨ ∃ old, st.gScore nb = some old ∧ current.gCost + 1 < old) ∧
        (relax detourGame (0, 2) current st nb).gScore nb = some (current.gCost + 1) ∧
        (relax detourGame (0, 2) current st nb).openSet.Perm
          (childNode detourGame (0, 2) current nb :: st.openSet)))) :=
  ⟨by decide, aStar_terminates detourGame (by decide) (0, 0) (0, 2) rfl rfl⟩

/-- C19 at the run on `staleGame` after eleven iterations. -/
theorem expansion_monotone_witness :
    staleGame.WF ∧ RunReach staleGame (1, 0) (0, 4) staleRun ∧
    ((staleRun.popped.Pairwise fun a b => a.fCost ≤ b.fCost) ∧
    (∀ current rest, heapPop staleRun.st.openSet = some (current, rest) →
      (∀ m ∈ staleRun.popped, m.fCost ≤ current.fCost) ∧
      ∀ nbs, staleGame.getNeighbors current.cell = some nbs →
        ∀ n ∈ pushLog staleGame (0, 4) current { staleRun.st with openSet := rest } nbs,
          current.fCost ≤ n.fCost)) :=
  ⟨by decide, staleRun_reach,
    expansion_monotone staleGame (by decide) (1, 0) (0, 4) staleRun staleRun_reach⟩

/-- C20 at the run on `staleGame` after eleven iterations. -/
theorem cost_bookkeeping_witness :
    staleGame.WF ∧ RunReach staleGame (1, 0) (0, 4) staleRun ∧
    ((∀ n ∈ staleRun.pushed, n.gCost = n.depth ∧
      n.root = Node.mk (1, 0) 0
        (heuristic (staleGame.cell (1, 0)) (staleGame.cell (0, 4))) none ∧
      (∀ p, n.parent = some p → n.gCost = p.gCost + 1) ∧ (n.parent = none → n.gCost = 0)) ∧
    (∀ c, staleRun.st.gScore c = (lastFor staleRun.pushed c).map Node.gCost) ∧
    (∀ c, staleRun.st.cameFrom c = lastFor staleRun.pushed c) ∧
    (∀ current rest, heapPop staleRun.st.openSet = some (current, rest) →
      current ∈ staleRun.pushed ∧ (reconstruct current []).length = current.gCost + 1)) :=
  ⟨by decide, staleRun_reach,
    cost_bookkeeping staleGame (by decide) (1, 0) (0, 4) staleRun staleRun_reach⟩

end AStar
